import Mathlib

/-!
Verification development for the sprite-to-collision-polygon pipeline of the
`animal_tower_pileup` repository (`src/polygon_extractor.py`, `src/animal.py`).

Embedding conventions:
* Points are pairs of rationals.  The Python code computes with IEEE floats;
  this development uses exact rational arithmetic, the standard idealisation.
* `math.sqrt` only ever feeds comparisons (`dist > max_dist`,
  `max_dist > tolerance`), and `sqrt` is strictly monotone on nonnegative
  reals, so distances are represented by their squares and the comparison
  `sqrt m > t` is encoded exactly as `t < 0 ∨ t^2 < m` (`sqrt_gt`).
* `math.atan2` only ever feeds the sort key of `convex_hull`.  The key order
  is encoded exactly by `polarKey`: class `0` is the `-π` key used for points
  equal to the pivot, classes `1`-`4` are the ranges `(-π,0)`, `{0}`, `(0,π)`,
  `{π}` of `atan2`, and inside classes `1` and `3` the rational `-x/y` is
  strictly increasing in the angle.  Python's `sorted` is a stable sort by
  this key; `List.insertionSort` is also stable, and two stable sorts by the
  same total preorder produce the same list.
* `pygame.mask.from_surface(...).outline(every=2)` is the external boundary
  tracer (spec §4.1); `extract_polygon_from_surface` is therefore modelled as
  a function of the image width, height and the traced outline.
-/

/-- A 2D point with rational coordinates. -/
abbrev Point : Type := ℚ × ℚ

/-- Cross product of three points, as in `cross_product` of
`src/polygon_extractor.py`: `(a.x−o.x)·(b.y−o.y) − (a.y−o.y)·(b.x−o.x)`. -/
def cross_product (o a b : Point) : ℚ :=
  (a.1 - o.1) * (b.2 - o.2) - (a.2 - o.2) * (b.1 - o.1)

/-- Offset vector from `o` to `p`. -/
def vsub (p o : Point) : Point := (p.1 - o.1, p.2 - o.2)

/-- Cross product of two offset vectors. -/
def vcross (u v : Point) : ℚ := u.1 * v.2 - u.2 * v.1

/-- Dot product of two offset vectors. -/
def vdot (u v : Point) : ℚ := u.1 * v.1 + u.2 * v.2

/-- The parameter `t` computed by `perpendicular_distance` before clamping:
`((x−x1)·dx + (y−y1)·dy) / (dx·dx + dy·dy)`. -/
def perp_t_raw (point line_start line_end : Point) : ℚ :=
  let dx := line_end.1 - line_start.1
  let dy := line_end.2 - line_start.2
  ((point.1 - line_start.1) * dx + (point.2 - line_start.2) * dy) / (dx * dx + dy * dy)

/-- The clamped parameter `t = max(0, min(1, t_raw))` of
`perpendicular_distance`. -/
def perp_t (point line_start line_end : Point) : ℚ :=
  max 0 (min 1 (perp_t_raw point line_start line_end))

/-- Square of the value returned by `perpendicular_distance` of
`src/polygon_extractor.py` (the Python function returns
`math.sqrt` of this quantity; the square root is kept implicit because it
only ever feeds monotone comparisons). -/
def perpendicular_distance_sq (point line_start line_end : Point) : ℚ :=
  let dx := line_end.1 - line_start.1
  let dy := line_end.2 - line_start.2
  if dx = 0 ∧ dy = 0 then
    (point.1 - line_start.1) ^ 2 + (point.2 - line_start.2) ^ 2
  else
    let t := perp_t point line_start line_end
    let proj_x := line_start.1 + t * dx
    let proj_y := line_start.2 + t * dy
    (point.1 - proj_x) ^ 2 + (point.2 - proj_y) ^ 2

/-- `sqrt_gt m t` encodes `Real.sqrt m > t` for `m ≥ 0` without leaving ℚ:
true iff `t < 0` or `t² < m`. -/
def sqrt_gt (mSq tol : ℚ) : Prop := tol < 0 ∨ tol ^ 2 < mSq

instance (mSq tol : ℚ) : Decidable (sqrt_gt mSq tol) := by
  unfold sqrt_gt; infer_instance

/-- The maximum-distance scan of `simplify_polygon`: fold over interior
indices `1 … len−2` tracking `(max_dist², max_idx)`, starting from `(0, 0)`
and updating on strict increase, exactly as the Python loop does (comparing
squared distances is equivalent to comparing the distances themselves). -/
def findMaxPD (points : List Point) (s e : Point) : ℚ × ℕ :=
  (List.range' 1 (points.length - 2)).foldl
    (fun acc i =>
      let d := perpendicular_distance_sq (points.getD i (0, 0)) s e
      if acc.1 < d then (d, i) else acc)
    (0, 0)

theorem findMaxPD_snd_le (points : List Point) (s e : Point) :
    (findMaxPD points s e).2 ≤ points.length - 2 := by
  unfold findMaxPD
  have h : ∀ (l : List ℕ) (acc : ℚ × ℕ), acc.2 ≤ points.length - 2 →
      (∀ i ∈ l, i ≤ points.length - 2) →
      (l.foldl (fun acc i =>
        let d := perpendicular_distance_sq (points.getD i (0, 0)) s e
        if acc.1 < d then (d, i) else acc) acc).2 ≤ points.length - 2 := by
    intro l
    induction l with
    | nil => intro acc h1 _; exact h1
    | cons x xs ih =>
      intro acc h1 h2
      simp only [List.foldl_cons]
      apply ih
      · dsimp only
        split
        · exact h2 x (by simp)
        · exact h1
      · intro i hi; exact h2 i (by simp [hi])
  apply h
  · simp
  · intro i hi
    rw [List.mem_range'] at hi
    omega

/-- Douglas–Peucker simplification, `simplify_polygon` of
`src/polygon_extractor.py`.  Lists of length ≤ 3 are returned unchanged;
otherwise the farthest interior point from the chord splits the list and the
two halves are simplified recursively (sharing the split point once).
The extra conjunct `1 ≤ m.2` marks the branch in which Python would recurse
on the whole list and never terminate (only possible when every interior
distance is `0` and `tolerance < 0`); the total model collapses that branch
to `[start, end]`. -/
def simplify_polygon (points : List Point) (tolerance : ℚ) : List Point :=
  if points.length ≤ 3 then points
  else
    if sqrt_gt (findMaxPD points (points.getD 0 (0, 0))
          (points.getD (points.length - 1) (0, 0))).1 tolerance ∧
        1 ≤ (findMaxPD points (points.getD 0 (0, 0))
          (points.getD (points.length - 1) (0, 0))).2 then
      (simplify_polygon
          (points.take ((findMaxPD points (points.getD 0 (0, 0))
            (points.getD (points.length - 1) (0, 0))).2 + 1)) tolerance).dropLast ++
        simplify_polygon
          (points.drop ((findMaxPD points (points.getD 0 (0, 0))
            (points.getD (points.length - 1) (0, 0))).2)) tolerance
    else [points.getD 0 (0, 0), points.getD (points.length - 1) (0, 0)]
termination_by points.length
decreasing_by
  · have hb := findMaxPD_snd_le points (points.getD 0 (0, 0))
      (points.getD (points.length - 1) (0, 0))
    simp only [List.length_take]
    omega
  · have hb := findMaxPD_snd_le points (points.getD 0 (0, 0))
      (points.getD (points.length - 1) (0, 0))
    simp only [List.length_drop]
    omega

/-- `popWhile p s` is the pop loop of the Graham scan in `convex_hull`:
the stack is stored top-first (so Python's `hull[-1]` is the head and
`hull[-2]` the second element), and the top is popped while
`cross_product(hull[-2], hull[-1], p) ≤ 0` holds with at least two
elements on the stack. -/
def popWhile (p : Point) : List Point → List Point
  | b :: a :: rest =>
    if cross_product a b p ≤ 0 then popWhile p (a :: rest) else b :: a :: rest
  | s => s

/-- Lowest-then-leftmost pivot selection, `min(points, key=lambda p: (p[1], p[0]))`
(the first occurrence of the lexicographic minimum, as Python's `min`). -/
def pivotMin (points : List Point) : Point :=
  match points with
  | [] => (0, 0)
  | p :: rest =>
    rest.foldl (fun acc q => if q.2 < acc.2 ∨ (q.2 = acc.2 ∧ q.1 < acc.1) then q else acc) p

/-- Class of an offset vector in the `atan2` order: `1` for angles in
`(-π, 0)` (negative `y`), `2` for angle `0` (including the zero vector, as
`atan2(0,0) = 0`), `3` for `(0, π)` (positive `y`), `4` for `π`
(`y = 0`, `x < 0`). -/
def angleClass (u : Point) : ℕ :=
  if u.2 < 0 then 1 else if 0 < u.2 then 3 else if 0 ≤ u.1 then 2 else 4

/-- Within angle classes `1` and `3`, `-x/y` is strictly increasing in the
angle; on the degenerate classes the slope is irrelevant and set to `0`. -/
def angleSlope (u : Point) : ℚ := if u.2 = 0 then 0 else -(u.1 / u.2)

/-- Exact encoding of the sort key `polar_angle` of `convex_hull`: the pivot
itself gets class `0` (the `-π` key), every other point is keyed by the
`atan2` class and slope of its offset from the pivot.  Comparing keys
lexicographically is equivalent to comparing the float keys of the source
(up to exhaustion of double precision). -/
def polarKey (start p : Point) : ℕ × ℚ :=
  if p = start then (0, 0) else (angleClass (vsub p start), angleSlope (vsub p start))

/-- Lexicographic comparison of polar keys, the order by which `convex_hull`
sorts. -/
def keyLe (start p q : Point) : Prop :=
  (polarKey start p).1 < (polarKey start q).1 ∨
    ((polarKey start p).1 = (polarKey start q).1 ∧ (polarKey start p).2 ≤ (polarKey start q).2)

instance (start : Point) : DecidableRel (keyLe start) := by
  intro p q; unfold keyLe; infer_instance

instance (start : Point) : IsTotal Point (keyLe start) := by
  constructor
  intro p q
  unfold keyLe
  rcases lt_trichotomy (polarKey start p).1 (polarKey start q).1 with h | h | h
  · exact Or.inl (Or.inl h)
  · rcases le_total (polarKey start p).2 (polarKey start q).2 with h2 | h2
    · exact Or.inl (Or.inr ⟨h, h2⟩)
    · exact Or.inr (Or.inr ⟨h.symm, h2⟩)
  · exact Or.inr (Or.inl h)

instance (start : Point) : IsTrans Point (keyLe start) := by
  constructor
  intro p q r hpq hqr
  unfold keyLe at *
  rcases hpq with h1 | ⟨h1, h1'⟩ <;> rcases hqr with h2 | ⟨h2, h2'⟩
  · exact Or.inl (h1.trans h2)
  · exact Or.inl (h2 ▸ h1)
  · exact Or.inl (h1 ▸ h2)
  · exact Or.inr ⟨h1.trans h2, h1'.trans h2'⟩

/-- Graham scan, `convex_hull` of `src/polygon_extractor.py`: fewer than 3
points are returned unchanged; otherwise points are sorted by polar angle
around the lowest-leftmost pivot (a stable sort, like Python's `sorted`)
and scanned with the pop rule `cross_product(hull[-2], hull[-1], p) ≤ 0`.
The stack is kept top-first and reversed at the end, so the result lists
the bottom of the Python stack first, exactly as the source returns it. -/
def convex_hull (points : List Point) : List Point :=
  if points.length < 3 then points
  else
    let start := pivotMin points
    let sorted_points := List.insertionSort (keyLe start) points
    (sorted_points.foldl (fun hull p => p :: popWhile p hull) []).reverse

/-- The `area` accumulator of `is_counter_clockwise`: the shoelace sum
`Σ (x_i·y_{i+1 mod n} − x_{i+1 mod n}·y_i)`, written by zipping the list with
its one-step rotation (`drop 1 ++ take 1` sends index `i` to `(i+1) mod n`). -/
def shoelace (points : List Point) : ℚ :=
  ((points.zip (points.drop 1 ++ points.take 1)).map
    (fun pq => pq.1.1 * pq.2.2 - pq.2.1 * pq.1.2)).sum

/-- `is_counter_clockwise` of `src/polygon_extractor.py`: the shoelace sum is
strictly positive. -/
def is_counter_clockwise (points : List Point) : Prop := 0 < shoelace points

instance (points : List Point) : Decidable (is_counter_clockwise points) := by
  unfold is_counter_clockwise; infer_instance

/-- `reduce_vertices` of `src/polygon_extractor.py`: if the list exceeds
`max_count`, keep the points at indices `⌊i·(len/max_count)⌋` for
`i = 0 … max_count−1`. -/
def reduce_vertices (points : List Point) (max_count : ℕ) : List Point :=
  if points.length ≤ max_count then points
  else
    (List.range max_count).map
      (fun i : ℕ => points.getD (⌊((i : ℚ) * (points.length : ℚ)) / (max_count : ℚ)⌋₊) (0, 0))

/-- The polygon built by `extract_polygon_from_surface` after the degenerate
guard: recentre, simplify, hull, and cap the vertex count (everything before
the winding normalisation). -/
def extract_intermediate (width height : ℚ) (outline : List Point)
    (simplify_tolerance : ℚ) (max_vertices : ℕ) : List Point :=
  let center_x := width / 2
  let center_y := height / 2
  let centered_outline := outline.map (fun p => (p.1 - center_x, p.2 - center_y))
  let simplified := simplify_polygon centered_outline simplify_tolerance
  let convex := convex_hull simplified
  if max_vertices < convex.length then reduce_vertices convex max_vertices else convex

/-- `extract_polygon_from_surface` of `src/polygon_extractor.py`, as a
function of the image size and the boundary trace (`mask.outline(every=2)`,
the external collaborator of spec §4.1).  Fewer than 3 outline points yield
the half-width/half-height box; otherwise the pipeline output is reversed
unless its shoelace sum is already positive. -/
def extract_polygon_from_surface (width height : ℚ) (outline : List Point)
    (simplify_tolerance : ℚ) (max_vertices : ℕ) : List Point :=
  if outline.length < 3 then
    let hw := width / 2
    let hh := height / 2
    [(-hw, -hh), (hw, -hh), (hw, hh), (-hw, hh)]
  else
    let convex := extract_intermediate width height outline simplify_tolerance max_vertices
    if is_counter_clockwise convex then convex else convex.reverse

/-- `get_fallback_polygon` of `src/polygon_extractor.py`: the 8-point ellipse
at 90% of the half-dimensions, with the transcendental functions and the
constant π abstracted so the definition stays exact (`piA`, `cosA`, `sinA`
stand for `math.pi`, `math.cos`, `math.sin`). -/
def get_fallback_polygon {α : Type} [Field α] (piA : α) (cosA sinA : α → α)
    (width height : α) : List (α × α) :=
  let hw := width / 2 * (9 / 10)
  let hh := height / 2 * (9 / 10)
  (List.range 8).map
    (fun i : ℕ => (hw * cosA (2 * piA * (i : α) / 8), hh * sinA (2 * piA * (i : α) / 8)))

/-- The `try/except` body of `Animal._get_polygon`: run the extraction
pipeline; if it raises (modelled by `Except.error`), substitute the ellipse
fallback for that image (the `print` diagnostic has no observable effect on
the returned value and is not modelled). -/
def extract_or_fallback {β : Type} (extract : String → Except String β)
    (fallback : String → β) (image_name : String) : β :=
  match extract image_name with
  | Except.ok poly => poly
  | Except.error _ => fallback image_name

/-- `Animal._get_polygon` of `src/animal.py`: look the image name up in the
class-level cache; on a miss, compute the polygon (with exception fallback)
and store it. -/
def animal_get_polygon {β : Type} (extract : String → Except String β)
    (fallback : String → β) (image_name : String)
    (cache : List (String × β)) : β × List (String × β) :=
  match cache.lookup image_name with
  | some poly => (poly, cache)
  | none =>
    let poly := extract_or_fallback extract fallback image_name
    (poly, (image_name, poly) :: cache)

/-- A sequence of `_get_polygon` calls threading the class-level cache,
additionally logging the names for which the extraction pipeline actually
ran (the cache-miss branch).  Returns (results, final cache, execution log). -/
def run_polygon_calls {β : Type} (extract : String → Except String β)
    (fallback : String → β) :
    List String → List (String × β) → List β × List (String × β) × List String
  | [], cache => ([], cache, [])
  | n :: rest, cache =>
    match cache.lookup n with
    | some poly =>
      let r := run_polygon_calls extract fallback rest cache
      (poly :: r.1, r.2.1, r.2.2)
    | none =>
      let poly := extract_or_fallback extract fallback n
      let r := run_polygon_calls extract fallback rest ((n, poly) :: cache)
      (poly :: r.1, r.2.1, n :: r.2.2)

/-- Convexity of a closed polygon in the sense of the spec: every triple of
consecutive vertices, wrapping around, has a non-negative cross product. -/
def convex_cyclic (l : List Point) : Prop :=
  ∀ i < l.length,
    0 ≤ cross_product (l.getD i (0, 0)) (l.getD ((i + 1) % l.length) (0, 0))
      (l.getD ((i + 2) % l.length) (0, 0))

instance (l : List Point) : Decidable (convex_cyclic l) := by
  unfold convex_cyclic; infer_instance

/-! ### Basic helper lemmas -/

theorem simplify_polygon_short (points : List Point) (tolerance : ℚ)
    (h : points.length ≤ 3) : simplify_polygon points tolerance = points := by
  rw [simplify_polygon]
  simp [h]

theorem reduce_vertices_length (points : List Point) (k : ℕ) :
    (reduce_vertices points k).length = if points.length ≤ k then points.length else k := by
  unfold reduce_vertices
  split
  · next h => simp [h]
  · rw [List.length_map, List.length_range]

theorem extract_intermediate_length_le (width height : ℚ) (outline : List Point)
    (tol : ℚ) (k : ℕ) :
    (extract_intermediate width height outline tol k).length ≤
      max k (convex_hull (simplify_polygon (outline.map
        (fun p => (p.1 - width / 2, p.2 - height / 2))) tol)).length := by
  unfold extract_intermediate
  dsimp only
  split
  · rw [reduce_vertices_length]
    split <;> omega
  · omega

/-! ### Claim C4: the degenerate-input box fallback -/

/-- Claim C4 (counterexample): for an all-transparent image of width 40 and
height 20 (empty boundary trace), `extract_polygon_from_surface` returns the
box at the FULL half-dimensions `[(-20,-10),(20,-10),(20,10),(-20,10)]`, not
the claimed 90% box `[(-18,-9),(18,-9),(18,9),(-18,9)]`. -/
theorem claim_C4_counterexample :
    extract_polygon_from_surface 40 20 [] 2 16 =
      [(-20, -10), (20, -10), (20, 10), (-20, 10)] ∧
    extract_polygon_from_surface 40 20 [] 2 16 ≠
      [(-18, -9), (18, -9), (18, 9), (-18, 9)] := by
  constructor
  · norm_num [extract_polygon_from_surface]
  · norm_num [extract_polygon_from_surface]

/-- Claim C4 (amended): whenever the boundary trace yields fewer than 3
points, `extract_polygon_from_surface` returns the axis-aligned box at the
full half-width and half-height of the image (no 90% factor). -/
theorem claim_C4_amended (width height : ℚ) (outline : List Point)
    (tol : ℚ) (k : ℕ) (h : outline.length < 3) :
    extract_polygon_from_surface width height outline tol k =
      [(-(width / 2), -(height / 2)), (width / 2, -(height / 2)),
        (width / 2, height / 2), (-(width / 2), height / 2)] := by
  unfold extract_polygon_from_surface
  rw [if_pos h]

/-- Witness for `claim_C4_amended` at the concrete 40×20 transparent image. -/
theorem claim_C4_witness :
    ([] : List Point).length < 3 ∧
    extract_polygon_from_surface 40 20 [] 2 16 =
      [(-(40 / 2 : ℚ), -(20 / 2 : ℚ)), ((40 / 2 : ℚ), -(20 / 2 : ℚ)),
        ((40 / 2 : ℚ), (20 / 2 : ℚ)), (-(40 / 2 : ℚ), (20 / 2 : ℚ))] :=
  ⟨by norm_num, claim_C4_amended 40 20 [] 2 16 (by norm_num)⟩

/-! ### Claim C3: the vertex bound -/

/-- Claim C3 (counterexample): with `max_vertices = 3` and an empty boundary
trace, the returned polygon has 4 vertices, exceeding the bound. -/
theorem claim_C3_counterexample :
    ¬ ((extract_polygon_from_surface 2 2 [] 2 3).length ≤ 3) := by
  norm_num [extract_polygon_from_surface]

/-- Claim C3 (amended): for every positive `max_vertices = k` the returned
polygon has at most `k` vertices whenever the boundary trace yields at least
3 points; over all inputs the bound is `max k 4`, because the degenerate
guard returns its 4-point box regardless of `k`. -/
theorem claim_C3_amended (width height : ℚ) (outline : List Point)
    (tol : ℚ) (k : ℕ) (hk : 1 ≤ k) :
    (3 ≤ outline.length →
      (extract_polygon_from_surface width height outline tol k).length ≤ k) ∧
    (extract_polygon_from_surface width height outline tol k).length ≤ max k 4 := by
  have hmain : ¬ outline.length < 3 →
      (extract_polygon_from_surface width height outline tol k).length ≤ k := by
    intro h3
    unfold extract_polygon_from_surface
    rw [if_neg h3]
    have hlen : (extract_intermediate width height outline tol k).length ≤ k := by
      unfold extract_intermediate
      dsimp only
      split
      · rw [reduce_vertices_length]
        split <;> omega
      · next h => omega
    dsimp only
    split
    · exact hlen
    · rw [List.length_reverse]; exact hlen
  constructor
  · intro h3; exact hmain (by omega)
  · by_cases h3 : outline.length < 3
    · unfold extract_polygon_from_surface
      rw [if_pos h3]
      simp
    · exact le_trans (hmain h3) (le_max_left _ _)

/-- Witness for `claim_C3_amended`: a 3-point outline with `k = 3` stays
within the bound. -/
theorem claim_C3_witness :
    1 ≤ 3 ∧
    ((3 ≤ ([(0, 0), (2, 0), (4, 0)] : List Point).length →
      (extract_polygon_from_surface 6 1 [(0, 0), (2, 0), (4, 0)] 2 3).length ≤ 3) ∧
    (extract_polygon_from_surface 6 1 [(0, 0), (2, 0), (4, 0)] 2 3).length ≤ max 3 4) :=
  ⟨by norm_num, claim_C3_amended 6 1 [(0, 0), (2, 0), (4, 0)] 2 3 (by norm_num)⟩

/-! ### List helper lemmas for the Douglas–Peucker proofs -/

theorem head?_eq_getD {α : Type} (l : List α) (d : α) (h : l ≠ []) :
    l.head? = some (l.getD 0 d) := by
  cases l with
  | nil => exact absurd rfl h
  | cons x xs => simp [List.getD]

theorem getLast?_eq_getD {α : Type} (l : List α) (d : α) (h : l ≠ []) :
    l.getLast? = some (l.getD (l.length - 1) d) := by
  rw [List.getLast?_eq_getElem?, List.getD_eq_getElem?_getD]
  have hlt : l.length - 1 < l.length := by
    have : l.length ≠ 0 := by simpa using h
    omega
  rw [List.getElem?_eq_getElem hlt]
  rfl

theorem head?_take {α : Type} (l : List α) (n : ℕ) (h : 1 ≤ n) :
    (l.take n).head? = l.head? := by
  cases l with
  | nil => simp
  | cons x xs =>
    cases n with
    | zero => omega
    | succ m => simp

theorem getLast?_drop {α : Type} (l : List α) (n : ℕ) (h : n < l.length) :
    (l.drop n).getLast? = l.getLast? := by
  rw [List.getLast?_eq_getElem?, List.getLast?_eq_getElem?, List.length_drop,
    List.getElem?_drop]
  congr 1
  omega

theorem getLast?_take {α : Type} (l : List α) (m : ℕ) (d : α) (h : m < l.length) :
    (l.take (m + 1)).getLast? = some (l.getD m d) := by
  have hlen : (l.take (m + 1)).length = m + 1 := by
    rw [List.length_take]; omega
  rw [List.getLast?_eq_getElem?, hlen, List.getElem?_take]
  rw [if_pos (by omega : m + 1 - 1 < m + 1)]
  have : m + 1 - 1 = m := by omega
  rw [this, List.getD_eq_getElem?_getD, List.getElem?_eq_getElem h]
  rfl

theorem dropLast_head? {α : Type} (l : List α) (h : 2 ≤ l.length) :
    l.dropLast.head? = l.head? := by
  cases l with
  | nil => simp at h
  | cons x xs =>
    cases xs with
    | nil => simp at h
    | cons y ys => simp

theorem head?_append_left {α : Type} (l r : List α) (h : l ≠ []) :
    (l ++ r).head? = l.head? := by
  cases l with
  | nil => exact absurd rfl h
  | cons x xs => simp

theorem getLast?_append_right {α : Type} (l r : List α) (h : r ≠ []) :
    (l ++ r).getLast? = r.getLast? :=
  List.getLast?_append_of_ne_nil l h

theorem sublist_of_cons_sublist_cons {α : Type} {a b : α} {l m : List α}
    (h : (a :: l).Sublist (b :: m)) : l.Sublist m := by
  cases h with
  | cons _ h2 => exact ((List.sublist_cons_self a l).trans h2)
  | cons₂ _ h2 => exact h2

theorem dropLast_append_getLast?_eq {α : Type} (l : List α) (x : α)
    (h : l.getLast? = some x) : l.dropLast ++ [x] = l := by
  have hne : l ≠ [] := by
    intro he; rw [he] at h; simp at h
  have hx : l.getLast hne = x := by
    rw [List.getLast?_eq_getLast l hne] at h
    exact Option.some_injective _ h
  rw [← hx]
  exact List.dropLast_append_getLast hne

theorem drop_eq_getD_cons {α : Type} (l : List α) (n : ℕ) (d : α) (h : n < l.length) :
    l.drop n = l.getD n d :: l.drop (n + 1) := by
  rw [List.getD_eq_getElem?_getD, List.getElem?_eq_getElem h]
  exact (List.getElem_cons_drop l n h).symm

/-- `simplify_polygon` never returns fewer than 2 points when given at
least 2. -/
theorem simplify_len_ge_two (points : List Point) (tolerance : ℚ)
    (h2 : 2 ≤ points.length) : 2 ≤ (simplify_polygon points tolerance).length := by
  induction points, tolerance using simplify_polygon.induct with
  | case1 points tolerance h =>
    rw [simplify_polygon_short points tolerance h]
    exact h2
  | case2 points tolerance h hc ih1 ih2 =>
    rw [simplify_polygon]
    rw [if_neg h, if_pos hc]
    have hb := findMaxPD_snd_le points (points.getD 0 (0, 0))
      (points.getD (points.length - 1) (0, 0))
    have hr : 2 ≤ (simplify_polygon
        (points.drop (findMaxPD points (points.getD 0 (0, 0))
          (points.getD (points.length - 1) (0, 0))).2) tolerance).length := by
      apply ih2
      rw [List.length_drop]
      omega
    rw [List.length_append]
    omega
  | case3 points tolerance h hc =>
    rw [simplify_polygon]
    rw [if_neg h, if_neg hc]
    simp

/-- Structural contract of `simplify_polygon`: the result is a subsequence of
the input and keeps the input's first and last points. -/
theorem simplify_polygon_spec (points : List Point) (tolerance : ℚ) :
    (simplify_polygon points tolerance).Sublist points ∧
    (simplify_polygon points tolerance).head? = points.head? ∧
    (simplify_polygon points tolerance).getLast? = points.getLast? := by
  induction points, tolerance using simplify_polygon.induct with
  | case1 points tolerance h =>
    rw [simplify_polygon_short points tolerance h]
    exact ⟨List.Sublist.refl _, rfl, rfl⟩
  | case2 points tolerance h hc ih1 ih2 =>
    have hb := findMaxPD_snd_le points (points.getD 0 (0, 0))
      (points.getD (points.length - 1) (0, 0))
    set M := (findMaxPD points (points.getD 0 (0, 0))
      (points.getD (points.length - 1) (0, 0))).2 with hMdef
    have hm2 : 1 ≤ M := hc.2
    have hlen4 : 4 ≤ points.length := by omega
    have hMlt : M < points.length := by omega
    set left := simplify_polygon (points.take (M + 1)) tolerance with hLdef
    set right := simplify_polygon (points.drop M) tolerance with hRdef
    have hTlen : (points.take (M + 1)).length = M + 1 := by
      rw [List.length_take]; omega
    have hDlen : (points.drop M).length = points.length - M := by
      rw [List.length_drop]
    have hLlen2 : 2 ≤ left.length := by
      apply simplify_len_ge_two; omega
    have hRlen2 : 2 ≤ right.length := by
      apply simplify_len_ge_two; omega
    have hLhead : left.head? = points.head? := by
      rw [ih1.2.1, head?_take points (M + 1) (by omega)]
    have hLlast : left.getLast? = some (points.getD M (0, 0)) := by
      rw [ih1.2.2, getLast?_take points M (0, 0) hMlt]
    have hRhead : right.head? = some (points.getD M (0, 0)) := by
      rw [ih2.2.1, drop_eq_getD_cons points M (0, 0) hMlt]
      rfl
    have hRlast : right.getLast? = points.getLast? := by
      rw [ih2.2.2, getLast?_drop points M hMlt]
    have hRne : right ≠ [] := by
      intro he; rw [he] at hRlen2; simp at hRlen2
    have hLDne : left.dropLast ≠ [] := by
      intro he
      have := congrArg List.length he
      rw [List.length_dropLast] at this
      simp at this
      omega
    rw [simplify_polygon, if_neg h, if_pos hc]
    rw [← hMdef, ← hLdef, ← hRdef]
    refine ⟨?_, ?_, ?_⟩
    · -- sublist
      obtain ⟨g, rtail, hr⟩ := List.exists_cons_of_ne_nil hRne
      have hg : g = points.getD M (0, 0) := by
        rw [hr] at hRhead; simpa using hRhead
      have hrt : rtail.Sublist (points.drop (M + 1)) := by
        have hsub := ih2.1
        rw [hr, drop_eq_getD_cons points M (0, 0) hMlt] at hsub
        exact sublist_of_cons_sublist_cons hsub
      have hrecomb : left.dropLast ++ right = left ++ rtail := by
        rw [hr, hg]
        have : left.dropLast ++ (points.getD M (0, 0) :: rtail) =
            (left.dropLast ++ [points.getD M (0, 0)]) ++ rtail := by simp
        rw [this, dropLast_append_getLast?_eq left _ hLlast]
      rw [hrecomb]
      have : (left ++ rtail).Sublist (points.take (M + 1) ++ points.drop (M + 1)) :=
        List.Sublist.append ih1.1 hrt
      rwa [List.take_append_drop] at this
    · rw [head?_append_left _ _ hLDne, dropLast_head? left hLlen2, hLhead]
    · rw [getLast?_append_right _ _ hRne, hRlast]
  | case3 points tolerance h hc =>
    rw [simplify_polygon, if_neg h, if_neg hc]
    have hne : points ≠ [] := by
      intro he; rw [he] at h; simp at h
    have hlen4 : 4 ≤ points.length := by omega
    refine ⟨?_, ?_, ?_⟩
    · have h1 : [points.getD 0 (0, 0)].Sublist (points.take 1) := by
        cases points with
        | nil => exact absurd rfl hne
        | cons a t => simp [List.getD]
      have h2 : [points.getD (points.length - 1) (0, 0)].Sublist (points.drop 1) := by
        have hlt : points.length - 1 < points.length := by omega
        have he : points.drop (points.length - 1) = [points.getD (points.length - 1) (0, 0)] := by
          rw [drop_eq_getD_cons points (points.length - 1) (0, 0) hlt]
          have : points.length - 1 + 1 = points.length := by omega
          rw [this, List.drop_length]
        rw [← he]
        have h3 : points.drop (points.length - 1) =
            (points.drop 1).drop (points.length - 2) := by
          rw [List.drop_drop]
          congr 1
          omega
        rw [h3]
        exact List.drop_sublist _ _
      have := List.Sublist.append h1 h2
      rwa [List.take_append_drop] at this
    · rw [head?_eq_getD points (0, 0) hne]
      rfl
    · rw [getLast?_eq_getD points (0, 0) hne]
      have : ([points.getD 0 (0, 0), points.getD (points.length - 1) (0, 0)]).getLast? =
          some (points.getD (points.length - 1) (0, 0)) := rfl
      rw [this]

/-- Claim C6: for every ordered point sequence and every non-negative
tolerance, `simplify_polygon` returns a subsequence of the input that
preserves the input's first and last points, and any sequence of length at
most 3 is returned unchanged. -/
theorem claim_C6_simplify_subsequence (points : List Point) (tolerance : ℚ)
    (htol : 0 ≤ tolerance) :
    (simplify_polygon points tolerance).Sublist points ∧
    (simplify_polygon points tolerance).head? = points.head? ∧
    (simplify_polygon points tolerance).getLast? = points.getLast? ∧
    (points.length ≤ 3 → simplify_polygon points tolerance = points) := by
  obtain ⟨h1, h2, h3⟩ := simplify_polygon_spec points tolerance
  exact ⟨h1, h2, h3, simplify_polygon_short points tolerance⟩

/-- Witness for `claim_C6_simplify_subsequence` at a concrete input. -/
theorem claim_C6_witness :
    (0 : ℚ) ≤ 2 ∧
    ((simplify_polygon [(0, 0), (1, 1), (2, 0), (3, 1)] 2).Sublist
        [(0, 0), (1, 1), (2, 0), (3, 1)] ∧
      (simplify_polygon [(0, 0), (1, 1), (2, 0), (3, 1)] 2).head? =
        ([(0, 0), (1, 1), (2, 0), (3, 1)] : List Point).head? ∧
      (simplify_polygon [(0, 0), (1, 1), (2, 0), (3, 1)] 2).getLast? =
        ([(0, 0), (1, 1), (2, 0), (3, 1)] : List Point).getLast? ∧
      (([(0, 0), (1, 1), (2, 0), (3, 1)] : List Point).length ≤ 3 →
        simplify_polygon [(0, 0), (1, 1), (2, 0), (3, 1)] 2 =
          [(0, 0), (1, 1), (2, 0), (3, 1)])) :=
  ⟨by norm_num, claim_C6_simplify_subsequence [(0, 0), (1, 1), (2, 0), (3, 1)] 2 (by norm_num)⟩

/-- `sqrt_gt` is antitone in the tolerance: a split that happens at the
larger tolerance also happens at the smaller one. -/
theorem sqrt_gt_mono (mSq t1 t2 : ℚ) (h12 : t1 ≤ t2) (h : sqrt_gt mSq t2) :
    sqrt_gt mSq t1 := by
  rcases h with h | h
  · exact Or.inl (lt_of_le_of_lt h12 h)
  · by_cases h1 : t1 < 0
    · exact Or.inl h1
    · push_neg at h1
      refine Or.inr (lt_of_le_of_lt ?_ h)
      have := mul_le_mul h12 h12 h1 (le_trans h1 h12)
      simpa [pow_two] using this

/-- Claim C7: increasing the tolerance never increases the number of points
kept by `simplify_polygon`. -/
theorem claim_C7_tolerance_monotonicity (points : List Point) (t1 t2 : ℚ)
    (h12 : t1 ≤ t2) :
    (simplify_polygon points t2).length ≤ (simplify_polygon points t1).length := by
  induction points, t1 using simplify_polygon.induct with
  | case1 points t1 h =>
    rw [simplify_polygon_short points t1 h, simplify_polygon_short points t2 h]
  | case2 points t1 h hc ih1 ih2 =>
    have hb := findMaxPD_snd_le points (points.getD 0 (0, 0))
      (points.getD (points.length - 1) (0, 0))
    set M := (findMaxPD points (points.getD 0 (0, 0))
      (points.getD (points.length - 1) (0, 0))).2 with hMdef
    have hm2 : 1 ≤ M := hc.2
    have hlen4 : 4 ≤ points.length := by omega
    conv_rhs => rw [simplify_polygon]
    rw [if_neg h, if_pos hc]
    by_cases hc2 : sqrt_gt (findMaxPD points (points.getD 0 (0, 0))
        (points.getD (points.length - 1) (0, 0))).1 t2 ∧
        1 ≤ (findMaxPD points (points.getD 0 (0, 0))
          (points.getD (points.length - 1) (0, 0))).2
    · conv_lhs => rw [simplify_polygon]
      rw [if_neg h, if_pos hc2, ← hMdef]
      rw [List.length_append, List.length_append, List.length_dropLast,
        List.length_dropLast]
      have g1 := ih1 h12
      have g2 := ih2 h12
      omega
    · conv_lhs => rw [simplify_polygon]
      rw [if_neg h, if_neg hc2, ← hMdef]
      have hL2 : 2 ≤ (simplify_polygon (points.take (M + 1)) t1).length := by
        apply simplify_len_ge_two
        rw [List.length_take]
        omega
      have hR2 : 2 ≤ (simplify_polygon (points.drop M) t1).length := by
        apply simplify_len_ge_two
        rw [List.length_drop]
        omega
      rw [List.length_append, List.length_dropLast]
      simp only [List.length_cons, List.length_nil]
      omega
  | case3 points t1 h hc =>
    conv_rhs => rw [simplify_polygon]
    rw [if_neg h, if_neg hc]
    have hc2 : ¬ (sqrt_gt (findMaxPD points (points.getD 0 (0, 0))
        (points.getD (points.length - 1) (0, 0))).1 t2 ∧
        1 ≤ (findMaxPD points (points.getD 0 (0, 0))
          (points.getD (points.length - 1) (0, 0))).2) := by
      intro hcc
      exact hc ⟨sqrt_gt_mono _ t1 t2 h12 hcc.1, hcc.2⟩
    conv_lhs => rw [simplify_polygon]
    rw [if_neg h, if_neg hc2]

/-- Witness for `claim_C7_tolerance_monotonicity` at a concrete input. -/
theorem claim_C7_witness :
    (1 : ℚ) ≤ 2 ∧
    (simplify_polygon [(0, 0), (1, 1), (2, 0), (3, 1)] 2).length ≤
      (simplify_polygon [(0, 0), (1, 1), (2, 0), (3, 1)] 1).length :=
  ⟨by norm_num, claim_C7_tolerance_monotonicity [(0, 0), (1, 1), (2, 0), (3, 1)] 1 2 (by norm_num)⟩

/-! ### Claim C10: perpendicular distance safety -/

/-- Claim C10: `perpendicular_distance` is total and non-negative: when the
segment endpoints coincide the squared distance to the endpoint is returned
and no division happens; otherwise the denominator `dx·dx + dy·dy` is
nonzero and the projection parameter is clamped into `[0, 1]`.  (Distances
are represented by their squares; `math.sqrt` of a non-negative quantity is
non-negative.) -/
theorem claim_C10_perpendicular_distance_safety (p ls le : Point) :
    0 ≤ perpendicular_distance_sq p ls le ∧
    (le.1 - ls.1 = 0 ∧ le.2 - ls.2 = 0 →
      perpendicular_distance_sq p ls le = (p.1 - ls.1) ^ 2 + (p.2 - ls.2) ^ 2) ∧
    (¬ (le.1 - ls.1 = 0 ∧ le.2 - ls.2 = 0) →
      (le.1 - ls.1) * (le.1 - ls.1) + (le.2 - ls.2) * (le.2 - ls.2) ≠ 0 ∧
      0 ≤ perp_t p ls le ∧ perp_t p ls le ≤ 1) := by
  refine ⟨?_, ?_, ?_⟩
  · unfold perpendicular_distance_sq
    dsimp only
    split <;> positivity
  · intro hz
    unfold perpendicular_distance_sq
    rw [if_pos hz]
  · intro hnz
    refine ⟨?_, ?_, ?_⟩
    · intro hsum
      apply hnz
      constructor
      · nlinarith [sq_nonneg (le.1 - ls.1), sq_nonneg (le.2 - ls.2),
          mul_self_nonneg (le.1 - ls.1), mul_self_nonneg (le.2 - ls.2)]
      · nlinarith [mul_self_nonneg (le.1 - ls.1), mul_self_nonneg (le.2 - ls.2)]
    · exact le_max_left 0 _
    · unfold perp_t
      exact max_le (by norm_num) (min_le_left 1 _)

/-- Witness for `claim_C10_perpendicular_distance_safety` at concrete
points. -/
theorem claim_C10_witness :
    0 ≤ perpendicular_distance_sq (1, 1) (0, 0) (2, 0) ∧
    ((2 : ℚ) - 0 = 0 ∧ (0 : ℚ) - 0 = 0 →
      perpendicular_distance_sq (1, 1) (0, 0) (2, 0) = (1 - 0) ^ 2 + (1 - 0) ^ 2) ∧
    (¬ ((2 : ℚ) - 0 = 0 ∧ (0 : ℚ) - 0 = 0) →
      ((2 : ℚ) - 0) * (2 - 0) + ((0 : ℚ) - 0) * (0 - 0) ≠ 0 ∧
      0 ≤ perp_t (1, 1) (0, 0) (2, 0) ∧ perp_t (1, 1) (0, 0) (2, 0) ≤ 1) :=
  claim_C10_perpendicular_distance_safety (1, 1) (0, 0) (2, 0)

/-! ### Claim C8: exception handling and the ellipse fallback -/

/-- Claim C8: if the extraction pipeline fails with any error and the cache
misses, `_get_polygon` returns (and never propagates the failure) the
deterministic 8-point ellipse fallback, whose i-th point is
`(0.9·(w/2)·cos(2π·i/8), 0.9·(h/2)·sin(2π·i/8))` — a function of the image
width and height alone. -/
theorem claim_C8_exception_fallback {α : Type} [Field α] (piA : α)
    (cosA sinA : α → α) (wOf hOf : String → α)
    (extract : String → Except String (List (α × α)))
    (name : String) (cache : List (String × List (α × α))) (e : String)
    (herr : extract name = Except.error e) (hmiss : cache.lookup name = none) :
    (animal_get_polygon extract
        (fun n => get_fallback_polygon piA cosA sinA (wOf n) (hOf n)) name cache).1 =
      get_fallback_polygon piA cosA sinA (wOf name) (hOf name) ∧
    (∀ i : ℕ, i < 8 →
      (get_fallback_polygon piA cosA sinA (wOf name) (hOf name)).getD i (0, 0) =
        ((9 : α) / 10 * (wOf name / 2) * cosA (2 * piA * (i : α) / 8),
          (9 : α) / 10 * (hOf name / 2) * sinA (2 * piA * (i : α) / 8))) := by
  constructor
  · unfold animal_get_polygon
    rw [hmiss]
    unfold extract_or_fallback
    rw [herr]
  · intro i hi
    unfold get_fallback_polygon
    rw [List.getD_eq_getElem?_getD, List.getElem?_map, List.getElem?_range hi]
    simp only [Option.map_some', Option.getD_some]
    rw [Prod.mk.injEq]
    constructor <;> ring

/-- Witness for `claim_C8_exception_fallback` with a concrete failing
extraction over ℚ. -/
theorem claim_C8_witness :
    ((fun _ : String => (Except.error "boom" : Except String (List (ℚ × ℚ)))) "bear.png" =
      Except.error "boom") ∧
    (([] : List (String × List (ℚ × ℚ))).lookup "bear.png" = none) ∧
    ((animal_get_polygon (fun _ => Except.error "boom")
        (fun n => get_fallback_polygon (0 : ℚ) id id ((fun _ => 40) n) ((fun _ => 20) n))
        "bear.png" []).1 =
      get_fallback_polygon (0 : ℚ) id id 40 20 ∧
    (∀ i : ℕ, i < 8 →
      (get_fallback_polygon (0 : ℚ) id id 40 20).getD i (0, 0) =
        ((9 : ℚ) / 10 * (40 / 2) * id (2 * 0 * (i : ℚ) / 8),
          (9 : ℚ) / 10 * (20 / 2) * id (2 * 0 * (i : ℚ) / 8)))) :=
  ⟨rfl, rfl,
    claim_C8_exception_fallback (0 : ℚ) id id (fun _ => 40) (fun _ => 20)
      (fun _ => Except.error "boom") "bear.png" [] "boom" rfl rfl⟩

/-! ### Claim C9: the polygon cache runs the pipeline at most once -/

attribute [instance] Option.decidableEqNone

theorem mem_of_lookup_eq_some {β : Type} {l : List (String × β)} {k : String} {v : β}
    (h : l.lookup k = some v) : (k, v) ∈ l := by
  induction l with
  | nil => exact Option.noConfusion h
  | cons kv t ih =>
    rw [List.lookup] at h
    by_cases hk : k = kv.1
    · have hb : (k == kv.1) = true := by simpa using hk
      rw [hb] at h
      have hv : kv.2 = v := Option.some_injective _ h
      have hp : (k, v) = kv := by
        rw [Prod.ext_iff]
        exact ⟨hk, hv.symm⟩
      rw [hp]
      exact List.mem_cons_self kv t
    · have hb : (k == kv.1) = false := by simpa using hk
      rw [hb] at h
      exact List.mem_cons_of_mem kv (ih h)

theorem lookup_cons_ne {β : Type} (l : List (String × β)) (k n : String) (v : β)
    (h : k ≠ n) : ((n, v) :: l).lookup k = l.lookup k := by
  rw [List.lookup]
  have hb : (k == n) = false := by simpa using h
  rw [hb]

/-- Invariant of the cached polygon lookup: if every cache entry stores the
pipeline value for its key, then every call returns the pipeline value, the
invariant persists, and the pipeline body runs exactly once per identity
that is requested while absent from the cache. -/
theorem run_polygon_calls_spec {β : Type} (extract : String → Except String β)
    (fallback : String → β) (names : List String)
    (cache : List (String × β))
    (hinv : ∀ kv ∈ cache, kv.2 = extract_or_fallback extract fallback kv.1) :
    (run_polygon_calls extract fallback names cache).1 =
      names.map (extract_or_fallback extract fallback) ∧
    (∀ kv ∈ (run_polygon_calls extract fallback names cache).2.1,
      kv.2 = extract_or_fallback extract fallback kv.1) ∧
    (∀ x : String, List.count x (run_polygon_calls extract fallback names cache).2.2 =
      if x ∈ names ∧ cache.lookup x = none then 1 else 0) := by
  induction names generalizing cache with
  | nil =>
    refine ⟨rfl, hinv, ?_⟩
    intro x
    simp [run_polygon_calls]
  | cons n rest ih =>
    rw [run_polygon_calls]
    cases hl : cache.lookup n with
    | some poly =>
      obtain ⟨ih1, ih2, ih3⟩ := ih cache hinv
      refine ⟨?_, ih2, ?_⟩
      · dsimp only
        rw [ih1, List.map_cons]
        congr 1
        exact hinv (n, poly) (mem_of_lookup_eq_some hl)
      · intro x
        dsimp only
        rw [ih3 x]
        by_cases hx : x = n
        · have hc1 : ¬ (x ∈ rest ∧ cache.lookup x = none) := by
            rintro ⟨-, hnone⟩; rw [hx, hl] at hnone; exact Option.noConfusion hnone
          have hc2 : ¬ (x ∈ n :: rest ∧ cache.lookup x = none) := by
            rintro ⟨-, hnone⟩; rw [hx, hl] at hnone; exact Option.noConfusion hnone
          rw [if_neg hc1, if_neg hc2]
        · by_cases hx2 : x ∈ rest ∧ cache.lookup x = none
          · rw [if_pos hx2, if_pos ⟨List.mem_cons_of_mem n hx2.1, hx2.2⟩]
          · rw [if_neg hx2, if_neg]
            rintro ⟨hmem, hnone⟩
            rcases List.mem_cons.mp hmem with he | hm
            · exact hx he
            · exact hx2 ⟨hm, hnone⟩
    | none =>
      have hinv' : ∀ kv ∈ (n, extract_or_fallback extract fallback n) :: cache,
          kv.2 = extract_or_fallback extract fallback kv.1 := by
        intro kv hkv
        rcases List.mem_cons.mp hkv with he | hm
        · rw [he]
        · exact hinv kv hm
      obtain ⟨ih1, ih2, ih3⟩ :=
        ih ((n, extract_or_fallback extract fallback n) :: cache) hinv'
      refine ⟨?_, ih2, ?_⟩
      · dsimp only
        rw [ih1, List.map_cons]
      · intro x
        dsimp only
        rw [List.count_cons, ih3 x]
        by_cases hx : x = n
        · have hc1 : ¬ (x ∈ rest ∧
              ((n, extract_or_fallback extract fallback n) :: cache).lookup x = none) := by
            rintro ⟨-, hnone⟩
            rw [hx] at hnone
            rw [List.lookup] at hnone
            rw [show (n == n) = true from by simp] at hnone
            exact Option.noConfusion hnone
          have hc2 : x ∈ n :: rest ∧ cache.lookup x = none := by
            constructor
            · rw [hx]; exact List.mem_cons_self n rest
            · rw [hx]; exact hl
          rw [if_neg hc1, if_pos hc2]
          simp [hx]
        · have hlk : ((n, extract_or_fallback extract fallback n) :: cache).lookup x =
              cache.lookup x := lookup_cons_ne cache x n _ hx
          rw [hlk]
          by_cases hx2 : x ∈ rest ∧ cache.lookup x = none
          · have hr : x ∈ n :: rest ∧ cache.lookup x = none :=
              ⟨List.mem_cons_of_mem n hx2.1, hx2.2⟩
            rw [if_pos hx2, if_pos hr]
            simp [Ne.symm hx]
          · have hr : ¬ (x ∈ n :: rest ∧ cache.lookup x = none) := by
              rintro ⟨hmem, hnone⟩
              rcases List.mem_cons.mp hmem with he | hm
              · exact hx he
              · exact hx2 ⟨hm, hnone⟩
            rw [if_neg hx2, if_neg hr]
            simp [Ne.symm hx]

/-- Claim C9: starting from an empty cache, every `_get_polygon` call for an
identity returns the same pipeline value (`extract_or_fallback` of that
identity), and the pipeline body executes exactly once per distinct
requested identity (zero times if never requested). -/
theorem claim_C9_cache_once {β : Type} (extract : String → Except String β)
    (fallback : String → β) (names : List String) (x : String) :
    (run_polygon_calls extract fallback names []).1 =
      names.map (extract_or_fallback extract fallback) ∧
    List.count x (run_polygon_calls extract fallback names []).2.2 =
      (if x ∈ names then 1 else 0) := by
  obtain ⟨h1, -, h3⟩ := run_polygon_calls_spec extract fallback names []
    (by intro kv hkv; exact absurd hkv (List.not_mem_nil kv))
  refine ⟨h1, ?_⟩
  rw [h3 x]
  by_cases hx : x ∈ names
  · rw [if_pos ⟨hx, rfl⟩, if_pos hx]
  · rw [if_neg (fun hc => hx hc.1), if_neg hx]

/-- Witness for `claim_C9_cache_once` at a concrete call sequence. -/
theorem claim_C9_witness :
    (run_polygon_calls (fun _ => Except.ok [((0 : ℚ), (0 : ℚ))]) (fun _ => [])
        ["bear.png", "bear.png", "cat.png"] []).1 =
      ["bear.png", "bear.png", "cat.png"].map
        (extract_or_fallback (fun _ => Except.ok [((0 : ℚ), (0 : ℚ))]) (fun _ => [])) ∧
    List.count "bear.png"
      (run_polygon_calls (fun _ => Except.ok [((0 : ℚ), (0 : ℚ))]) (fun _ => [])
        ["bear.png", "bear.png", "cat.png"] []).2.2 =
      (if "bear.png" ∈ ["bear.png", "bear.png", "cat.png"] then 1 else 0) :=
  claim_C9_cache_once (fun _ => Except.ok [((0 : ℚ), (0 : ℚ))]) (fun _ => [])
    ["bear.png", "bear.png", "cat.png"] "bear.png"

/-! ### Shoelace-sum machinery -/

/-- One shoelace edge term `x_p·y_q − x_q·y_p`. -/
def edgeDet (p q : Point) : ℚ := p.1 * q.2 - q.1 * p.2

/-- Sum of the shoelace edge terms along a path (no wrap-around edge). -/
def pathSum : List Point → ℚ
  | p :: q :: t => edgeDet p q + pathSum (q :: t)
  | _ => 0

theorem getLastD_eq_of_ne_nil {α : Type} (l : List α) (d d' : α) (h : l ≠ []) :
    l.getLastD d = l.getLastD d' := by
  cases l with
  | nil => exact absurd rfl h
  | cons x xs =>
    rw [List.getLastD_eq_getLast?, List.getLastD_eq_getLast?,
      List.getLast?_eq_getLast _ (by simp)]
    rfl

theorem zip_rot_sum (t : List Point) (p a : Point) :
    (((p :: t).zip (t ++ [a])).map
      (fun pq => pq.1.1 * pq.2.2 - pq.2.1 * pq.1.2)).sum =
      pathSum (p :: t) + edgeDet ((p :: t).getLastD (0, 0)) a := by
  induction t generalizing p with
  | nil =>
    simp [pathSum, edgeDet, List.getLastD]
  | cons q tt ih =>
    have step : ((p :: q :: tt).zip ((q :: tt) ++ [a])) =
        (p, q) :: ((q :: tt).zip (tt ++ [a])) := rfl
    rw [step, List.map_cons, List.sum_cons, ih q]
    have hlast : (p :: q :: tt).getLastD (0, 0) = (q :: tt).getLastD (0, 0) := by
      rw [List.getLastD_cons]
      exact getLastD_eq_of_ne_nil (q :: tt) p (0, 0) (by simp)
    rw [hlast]
    show p.1 * q.2 - q.1 * p.2 + (pathSum (q :: tt) + _) = _
    rw [show pathSum (p :: q :: tt) = edgeDet p q + pathSum (q :: tt) from rfl]
    unfold edgeDet
    ring

/-- The shoelace sum splits into the open-path sum plus the closing edge. -/
theorem shoelace_eq_pathSum (l : List Point) (h : l ≠ []) :
    shoelace l = pathSum l + edgeDet (l.getLastD (0, 0)) (l.headD (0, 0)) := by
  cases l with
  | nil => exact absurd rfl h
  | cons p t =>
    unfold shoelace
    have h1 : (p :: t).drop 1 ++ (p :: t).take 1 = t ++ [p] := by simp
    rw [h1]
    rw [zip_rot_sum t p p]
    rfl

theorem pathSum_append_singleton (m : List Point) (x : Point) (h : m ≠ []) :
    pathSum (m ++ [x]) = pathSum m + edgeDet (m.getLastD (0, 0)) x := by
  induction m with
  | nil => exact absurd rfl h
  | cons y t ih =>
    cases t with
    | nil => simp [pathSum, List.getLastD]
    | cons z tt =>
      have hps : pathSum ((y :: z :: tt) ++ [x]) =
          edgeDet y z + pathSum ((z :: tt) ++ [x]) := rfl
      rw [hps, ih (by simp)]
      rw [show pathSum (y :: z :: tt) = edgeDet y z + pathSum (z :: tt) from rfl]
      have hlast : (y :: z :: tt).getLastD (0, 0) = (z :: tt).getLastD (0, 0) := by
        rw [List.getLastD_cons]
        exact getLastD_eq_of_ne_nil (z :: tt) y (0, 0) (by simp)
      rw [hlast]
      ring

theorem edgeDet_antisymm (p q : Point) : edgeDet q p = -edgeDet p q := by
  unfold edgeDet; ring

theorem pathSum_reverse (l : List Point) : pathSum l.reverse = -pathSum l := by
  induction l with
  | nil => simp [pathSum]
  | cons x t ih =>
    cases t with
    | nil => simp [pathSum]
    | cons y tt =>
      rw [List.reverse_cons]
      rw [pathSum_append_singleton _ x (by simp)]
      rw [ih]
      have hlast : ((y :: tt).reverse).getLastD (0, 0) = y := by
        rw [List.getLastD_eq_getLast?, List.getLast?_reverse]
        rfl
      rw [hlast]
      rw [show pathSum (x :: y :: tt) = edgeDet x y + pathSum (y :: tt) from rfl]
      rw [edgeDet_antisymm]
      ring

/-- Reversing a polygon negates its shoelace sum. -/
theorem shoelace_reverse (l : List Point) : shoelace l.reverse = -shoelace l := by
  cases l with
  | nil => rfl
  | cons p t =>
    have h1 : (p :: t) ≠ [] := by simp
    have h2 : (p :: t).reverse ≠ [] := by simp
    rw [shoelace_eq_pathSum _ h2, shoelace_eq_pathSum _ h1, pathSum_reverse]
    have hh : ((p :: t).reverse).headD (0, 0) = (p :: t).getLastD (0, 0) := by
      rw [List.headD_eq_head?, List.head?_reverse, List.getLastD_eq_getLast?]
    have hl : ((p :: t).reverse).getLastD (0, 0) = (p :: t).headD (0, 0) := by
      rw [List.getLastD_eq_getLast?, List.getLast?_reverse, List.headD_eq_head?]
    rw [hh, hl, edgeDet_antisymm]
    ring

/-- **C2.** Counterexample to "the returned polygon has a positive shoelace
sum": a collinear 3-point outline in a 6×1 image yields a 2-point result
whose shoelace sum is `0`, which is not positive. -/
theorem claim_C2_counterexample :
    extract_polygon_from_surface 6 1 [(0,1),(2,1),(4,1)] 2 16 = [(1,1/2),(-3,1/2)] ∧
    ¬ (0 < shoelace (extract_polygon_from_surface 6 1 [(0,1),(2,1),(4,1)] 2 16)) := by
  have hinter : extract_intermediate 6 1 [(0,1),(2,1),(4,1)] 2 16 = [(-3,1/2),(1,1/2)] := by
    unfold extract_intermediate
    norm_num
    rw [simplify_polygon_short ([(-3,1/2),(-1,1/2),(1,1/2)] : List Point) 2
      (by norm_num)]
    norm_num [convex_hull, pivotMin, List.insertionSort, List.orderedInsert,
      keyLe, polarKey, angleClass, angleSlope, vsub, popWhile, cross_product,
      Prod.ext_iff]
  have hres : extract_polygon_from_surface 6 1 [(0,1),(2,1),(4,1)] 2 16 = [(1,1/2),(-3,1/2)] := by
    unfold extract_polygon_from_surface
    norm_num [hinter, is_counter_clockwise, shoelace]
  refine ⟨hres, ?_⟩
  rw [hres]
  norm_num [shoelace]

/-- **C2, amended.** For nonnegative image dimensions the returned polygon's
shoelace sum is always nonnegative (never negative); when the outline has at
least 3 points, the result is the reversed intermediate polygon exactly when
the intermediate shoelace sum is not positive, and the result's shoelace sum
is strictly positive whenever the intermediate one is nonzero. -/
theorem claim_C2_amended (width height : ℚ) (outline : List Point)
    (tol : ℚ) (k : ℕ) (hw : 0 ≤ width) (hh : 0 ≤ height) :
    0 ≤ shoelace (extract_polygon_from_surface width height outline tol k) ∧
    (3 ≤ outline.length →
      ((¬ is_counter_clockwise (extract_intermediate width height outline tol k) →
        extract_polygon_from_surface width height outline tol k =
          (extract_intermediate width height outline tol k).reverse) ∧
       (shoelace (extract_intermediate width height outline tol k) ≠ 0 →
        0 < shoelace (extract_polygon_from_surface width height outline tol k)))) := by
  unfold extract_polygon_from_surface
  by_cases hlen : outline.length < 3
  · rw [if_pos hlen]
    constructor
    · have hbox : shoelace [(-(width/2), -(height/2)), (width/2, -(height/2)),
          (width/2, height/2), (-(width/2), height/2)] = 2 * width * height := by
        simp [shoelace]
        ring
      simp only [hbox]
      positivity
    · intro h3; omega
  · rw [if_neg hlen]
    by_cases hccw : is_counter_clockwise (extract_intermediate width height outline tol k)
    · rw [if_pos hccw]
      refine ⟨le_of_lt hccw, fun _ => ⟨fun hn => absurd hccw hn, fun _ => hccw⟩⟩
    · rw [if_neg hccw]
      have hle : shoelace (extract_intermediate width height outline tol k) ≤ 0 :=
        le_of_not_lt hccw
      rw [shoelace_reverse]
      exact ⟨by linarith, fun _ => ⟨fun _ => rfl, fun hne => by
        rcases lt_or_eq_of_le hle with h | h
        · linarith
        · exact absurd h hne⟩⟩

theorem claim_C2_witness :
    0 ≤ shoelace (extract_polygon_from_surface 2 2 [(0,1),(2,1),(1,3)] 1 8) :=
  (claim_C2_amended 2 2 [(0,1),(2,1),(1,3)] 1 8 (by norm_num) (by norm_num)).1

/-! ### Algebraic lemmas for the Graham-scan convexity proof

Throughout, `cross_product O p q` plays the role of the bracket `[pq]` of the
offset vectors of `p` and `q` from `O`, and `cross_product p q r` is the turn
cross product at `q` along `p → q → r`. -/

/-- The turn cross product expands into brackets at any origin. -/
theorem cross_eq_brackets (O p q r : Point) :
    cross_product p q r =
      cross_product O q r - cross_product O p r + cross_product O p q := by
  unfold cross_product; ring

/-- Grassmann–Plücker relation for four points around an origin. -/
theorem pluecker (O p q r s : Point) :
    cross_product O p q * cross_product O r s -
      cross_product O p r * cross_product O q s +
      cross_product O p s * cross_product O q r = 0 := by
  unfold cross_product; ring

theorem cross_product_self_left (p q : Point) : cross_product p p q = 0 := by
  unfold cross_product; ring

theorem cross_product_self_right (p q : Point) : cross_product p q q = 0 := by
  unfold cross_product; ring

theorem cross_product_self_mid (p q : Point) : cross_product p q p = 0 := by
  unfold cross_product; ring

/-- Wrap identity: the turn at `p` closing back to the origin equals the
bracket `[pq]`. -/
theorem cross_wrap_last (O p q : Point) :
    cross_product p q O = cross_product O p q := by
  unfold cross_product; ring

/-- Wrap identity: the turn at the origin from `q` to `r` equals the
bracket `[rq]`. -/
theorem cross_wrap_origin (O q r : Point) :
    cross_product q O r = cross_product O r q := by
  unfold cross_product; ring

/-- Chord lemma (ATOM-A): if the stack pair `(a, b)` above `x` has a strictly
positive bracket and the new point `z` is weakly left of the edge `a → b`,
then `z` is weakly left of the chord `x → b`. -/
theorem atomA (O x a b z : Point)
    (hxb : 0 ≤ cross_product O x b) (hbz : 0 ≤ cross_product O b z)
    (hab : 0 < cross_product O a b)
    (hT : 0 ≤ cross_product x a b) (hS : 0 ≤ cross_product a b z) :
    0 ≤ cross_product x b z := by
  by_contra h
  push_neg at h
  have e1 := cross_eq_brackets O x b z
  have e2 := cross_eq_brackets O x a b
  have e3 := cross_eq_brackets O a b z
  have plk := pluecker O x a b z
  nlinarith [mul_pos hab (show 0 < cross_product O x z - cross_product O b z -
      cross_product O x b by linarith),
    mul_nonneg hT hbz,
    mul_nonneg hxb (show 0 ≤ cross_product O b z - cross_product O a z +
      cross_product O a b by linarith)]

set_option maxHeartbeats 1600000 in
/-- Core of the five-point lemma, stated on brackets: `UV = [uv]` etc. for
five vectors `u, v, a, b, z` around an origin, `P1`–`P5` the Grassmann–Plücker
relations of the four-element subsets.  The conclusion is the turn
`cross(u, v, z) ≥ 0` written in brackets. -/
theorem atom5_brackets (UV UA UB UZ VA VB VZ AZ BZ AB : ℚ)
    (huv : 0 ≤ UV) (hua : 0 ≤ UA) (hub : 0 ≤ UB) (huz : 0 ≤ UZ)
    (hva : 0 ≤ VA) (hvb : 0 ≤ VB) (hvz : 0 ≤ VZ) (haz : 0 ≤ AZ) (hbz : 0 ≤ BZ)
    (hab : 0 < AB)
    (hT1 : 0 ≤ VA - UA + UV) (hT2 : 0 ≤ VB - UB + UV) (hT4 : 0 ≤ AB - VB + VA)
    (hS : 0 < BZ - AZ + AB)
    (P1 : UV*AB - UA*VB + UB*VA = 0)
    (P2 : UV*AZ - UA*VZ + UZ*VA = 0)
    (P3 : UV*BZ - UB*VZ + UZ*VB = 0)
    (P4 : UA*BZ - UB*AZ + UZ*AB = 0)
    (P5 : VA*BZ - VB*AZ + VZ*AB = 0) :
    0 ≤ VZ - UZ + UV := by
  by_contra hG
  push_neg at hG
  rcases lt_or_eq_of_le hva with hva' | hva'
  · -- VA > 0
    have hGva : 0 < (UZ - VZ - UV) * VA := mul_pos (by linarith) hva'
    have h2 : UV * (AZ + VA) < (UA - VA) * VZ := by nlinarith [hGva, P2]
    have hpn : 0 ≤ UV * (AZ + VA) := mul_nonneg huv (by linarith)
    have hAVZ : 0 < (UA - VA) * VZ := lt_of_le_of_lt hpn h2
    have hA : 0 < UA - VA := by
      by_contra hc
      push_neg at hc
      nlinarith [mul_nonneg (neg_nonneg.2 hc) hvz, hAVZ]
    have hVZ : 0 < VZ := by
      by_contra hc
      push_neg at hc
      nlinarith [mul_nonneg hA.le (neg_nonneg.2 hc), hAVZ]
    have hUV : 0 < UV := lt_of_lt_of_le hA (by linarith)
    have hmono : (UA - VA) * (AZ + VA) ≤ UV * (AZ + VA) :=
      mul_le_mul_of_nonneg_right (by linarith) (by linarith)
    have hvzgt : AZ + VA < VZ := by
      have hlt : (UA - VA) * (AZ + VA) < (UA - VA) * VZ := lt_of_le_of_lt hmono h2
      exact lt_of_mul_lt_mul_left (by linarith [hlt]) hA.le
    rcases lt_or_eq_of_le hvb with hvb' | hvb'
    · -- VB > 0
      have hGvb : 0 < (UZ - VZ - UV) * VB := mul_pos (by linarith) hvb'
      have h3 : UV * (BZ + VB) < (UB - VB) * VZ := by nlinarith [hGvb, P3]
      have hpn3 : 0 ≤ UV * (BZ + VB) := mul_nonneg huv (by linarith)
      have hBVZ : 0 < (UB - VB) * VZ := lt_of_le_of_lt hpn3 h3
      have hB : 0 < UB - VB := by
        by_contra hc
        push_neg at hc
        nlinarith [mul_nonneg (neg_nonneg.2 hc) hvz, hBVZ]
      have hmono3 : (UB - VB) * (BZ + VB) ≤ UV * (BZ + VB) :=
        mul_le_mul_of_nonneg_right (by linarith) (by linarith)
      have hvzgt3 : BZ + VB < VZ := by
        have hlt : (UB - VB) * (BZ + VB) < (UB - VB) * VZ := lt_of_le_of_lt hmono3 h3
        exact lt_of_mul_lt_mul_left (by linarith [hlt]) hB.le
      have c1 : (BZ + VB) * AB < VZ * AB := mul_lt_mul_of_pos_right hvzgt3 hab
      have c3 : VB * AZ ≤ VB * (AB + BZ) :=
        mul_le_mul_of_nonneg_left (by linarith) (by linarith)
      have c4 : 0 ≤ BZ * (AB - VB + VA) := mul_nonneg hbz (by linarith)
      linarith [c1, c3, P5, c4]
    · -- VB = 0
      have hc1 : 0 < UV * AB := mul_pos hUV hab
      have hc2 : 0 ≤ UB * VA := mul_nonneg hub hva
      have hc3 : UA * VB = 0 := by rw [← hvb']; ring
      linarith [P1, hc1, hc2, hc3]
  · -- VA = 0
    rcases lt_or_eq_of_le huv with huv' | huv'
    · -- UV > 0
      have hUAVB : 0 < UA * VB := by
        have hc1 : 0 < UV * AB := mul_pos huv' hab
        have hc2 : 0 ≤ UB * VA := by rw [← hva']; simp
        linarith [P1, hc1, hc2]
      have hUA : 0 < UA := by
        by_contra hc
        push_neg at hc
        have h0 : UA = 0 := le_antisymm hc hua
        rw [h0, zero_mul] at hUAVB
        exact lt_irrefl 0 hUAVB
      have hVB : 0 < VB := by
        by_contra hc
        push_neg at hc
        have h0 : VB = 0 := le_antisymm hc hvb
        rw [h0, mul_zero] at hUAVB
        exact lt_irrefl 0 hUAVB
      have hGvb : 0 < (UZ - VZ - UV) * VB := mul_pos (by linarith) hVB
      have h3 : UV * (BZ + VB) < (UB - VB) * VZ := by nlinarith [hGvb, P3]
      have hpn3 : 0 ≤ UV * (BZ + VB) := mul_nonneg huv (by linarith)
      have hBVZ : 0 < (UB - VB) * VZ := lt_of_le_of_lt hpn3 h3
      have hB : 0 < UB - VB := by
        by_contra hc
        push_neg at hc
        nlinarith [mul_nonneg (neg_nonneg.2 hc) hvz, hBVZ]
      have hmono3 : (UB - VB) * (BZ + VB) ≤ UV * (BZ + VB) :=
        mul_le_mul_of_nonneg_right (by linarith) (by linarith)
      have hvzgt3 : BZ + VB < VZ := by
        have hlt : (UB - VB) * (BZ + VB) < (UB - VB) * VZ := lt_of_le_of_lt hmono3 h3
        exact lt_of_mul_lt_mul_left (by linarith [hlt]) hB.le
      have c1 : (BZ + VB) * AB < VZ * AB := mul_lt_mul_of_pos_right hvzgt3 hab
      have c3 : VB * AZ ≤ VB * (AB + BZ) :=
        mul_le_mul_of_nonneg_left (by linarith) (by linarith)
      have c4 : 0 ≤ BZ * (AB - VB + VA) := mul_nonneg hbz (by linarith)
      linarith [c1, c3, P5, c4]
    · -- UV = 0
      have hUZ : 0 < UZ := by linarith
      have hUA0 : UA = 0 := by linarith
      have hUBAZ : 0 < UB * AZ := by
        have hc1 : 0 < UZ * AB := mul_pos hUZ hab
        have hc2 : UA * BZ = 0 := by rw [hUA0]; ring
        linarith [P4, hc1, hc2]
      have hUB : 0 < UB := by
        by_contra hc
        push_neg at hc
        have h0 : UB = 0 := le_antisymm hc hub
        rw [h0, zero_mul] at hUBAZ
        exact lt_irrefl 0 hUBAZ
      have hVBge : UB ≤ VB := by linarith
      have hle : UZ * UB ≤ UZ * VB := mul_le_mul_of_nonneg_left hVBge hUZ.le
      have hP3' : UB * VZ = UZ * VB := by
        have hc : UV * BZ = 0 := by rw [← huv']; ring
        linarith [P3, hc]
      have hfin : UB * UZ ≤ UB * VZ := by linarith [hle, hP3']
      have hVZge : UZ ≤ VZ := le_of_mul_le_mul_left hfin hUB
      linarith

/-- The five-point lemma at point level: `u, v, a, b` in stack order with `z`
the new point, all brackets around the pivot `O` nonnegative, the top pair
with a strictly positive bracket, the listed stack triples nonnegative and
the pop-stop condition at the top pair strict. -/
theorem atom5 (O u v a b z : Point)
    (huv : 0 ≤ cross_product O u v) (hua : 0 ≤ cross_product O u a)
    (hub : 0 ≤ cross_product O u b) (huz : 0 ≤ cross_product O u z)
    (hva : 0 ≤ cross_product O v a) (hvb : 0 ≤ cross_product O v b)
    (hvz : 0 ≤ cross_product O v z) (haz : 0 ≤ cross_product O a z)
    (hbz : 0 ≤ cross_product O b z)
    (hab : 0 < cross_product O a b)
    (hT1 : 0 ≤ cross_product u v a) (hT2 : 0 ≤ cross_product u v b)
    (hT4 : 0 ≤ cross_product v a b)
    (hS : 0 < cross_product a b z) :
    0 ≤ cross_product u v z := by
  have e1 := cross_eq_brackets O u v a
  have e2 := cross_eq_brackets O u v b
  have e4 := cross_eq_brackets O v a b
  have eS := cross_eq_brackets O a b z
  have eG := cross_eq_brackets O u v z
  have hmain := atom5_brackets (cross_product O u v) (cross_product O u a)
    (cross_product O u b) (cross_product O u z) (cross_product O v a)
    (cross_product O v b) (cross_product O v z) (cross_product O a z)
    (cross_product O b z) (cross_product O a b)
    huv hua hub huz hva hvb hvz haz hbz hab
    (by linarith) (by linarith) (by linarith) (by linarith)
    (pluecker O u v a b) (pluecker O u v a z) (pluecker O u v b z)
    (pluecker O u a b z) (pluecker O v a b z)
  linarith

/-- The adjacency relation maintained between a stack element and the one
directly above it: either a strictly positive bracket, or collinear with the
pivot with the upper one strictly shorter (`0 < w_p·w_q < w_p·w_p`). -/
def AdjPairP (O p q : Point) : Prop :=
  0 < cross_product O p q ∨
    (cross_product O p q = 0 ∧ 0 < vdot (vsub p O) (vsub q O) ∧
      vdot (vsub p O) (vsub q O) < vdot (vsub p O) (vsub p O))

/-- `p` lies weakly above the pivot row, and weakly right of the pivot when
on the same row — true of every input point when `O` is the
lowest-then-leftmost point. -/
def upper (O p : Point) : Prop := O.2 ≤ p.2 ∧ (p.2 = O.2 → O.1 ≤ p.1)

theorem vdot_self_pos (O p : Point) (h : p ≠ O) :
    0 < vdot (vsub p O) (vsub p O) := by
  have hne : p.1 - O.1 ≠ 0 ∨ p.2 - O.2 ≠ 0 := by
    by_contra hc
    push_neg at hc
    exact h (Prod.ext_iff.2 ⟨by linarith [hc.1], by linarith [hc.2]⟩)
  show 0 < (p.1 - O.1) * (p.1 - O.1) + (p.2 - O.2) * (p.2 - O.2)
  rcases hne with h1 | h1
  · nlinarith [mul_self_pos.mpr h1, mul_self_nonneg (p.2 - O.2)]
  · nlinarith [mul_self_pos.mpr h1, mul_self_nonneg (p.1 - O.1)]

/-- Collinearity through the pivot is transitive across a non-pivot middle
point. -/
theorem bracket_trans_zero (O x y w : Point) (hyO : y ≠ O)
    (h1 : cross_product O x y = 0) (h2 : cross_product O y w = 0) :
    cross_product O x w = 0 := by
  have i1 : cross_product O x w * (y.1 - O.1) = 0 := by
    have idt : cross_product O x y * (w.1 - O.1) - cross_product O x w * (y.1 - O.1) +
        cross_product O y w * (x.1 - O.1) = 0 := by
      unfold cross_product; ring
    linear_combination (w.1 - O.1) * h1 + (x.1 - O.1) * h2 - idt
  have i2 : cross_product O x w * (y.2 - O.2) = 0 := by
    have idt : cross_product O x y * (w.2 - O.2) - cross_product O x w * (y.2 - O.2) +
        cross_product O y w * (x.2 - O.2) = 0 := by
      unfold cross_product; ring
    linear_combination (w.2 - O.2) * h1 + (x.2 - O.2) * h2 - idt
  rcases mul_eq_zero.1 i1 with h | hy1
  · exact h
  rcases mul_eq_zero.1 i2 with h | hy2
  · exact h
  · exact absurd (Prod.ext_iff.2 ⟨by linarith, by linarith⟩) hyO

/-- Two non-pivot points of the upper half-plane that are collinear with the
pivot lie on the same ray: their offset dot product is positive. -/
theorem upper_collinear_dot_pos (O p q : Point) (hp : upper O p) (hq : upper O q)
    (hpO : p ≠ O) (hqO : q ≠ O) (h0 : cross_product O p q = 0) :
    0 < vdot (vsub p O) (vsub q O) := by
  have h0' : (p.1 - O.1) * (q.2 - O.2) - (p.2 - O.2) * (q.1 - O.1) = 0 := h0
  have hdot : vdot (vsub p O) (vsub q O) =
      (p.1 - O.1) * (q.1 - O.1) + (p.2 - O.2) * (q.2 - O.2) := rfl
  rw [hdot]
  rcases eq_or_lt_of_le hp.1 with h2 | h2
  · -- p on the pivot row, hence strictly right of O
    have hp1 : O.1 < p.1 := by
      rcases eq_or_lt_of_le (hp.2 h2.symm) with h | h
      · exact absurd (Prod.ext_iff.2 ⟨h.symm, h2.symm⟩) hpO
      · exact h
    have hq2 : q.2 = O.2 := by
      have hz : (p.1 - O.1) * (q.2 - O.2) = 0 := by
        linear_combination h0' - (q.1 - O.1) * h2
      rcases mul_eq_zero.1 hz with h | h
      · exact absurd h (sub_ne_zero.2 (ne_of_gt hp1))
      · linarith
    have hq1 : O.1 < q.1 := by
      rcases eq_or_lt_of_le (hq.2 hq2) with h | h
      · exact absurd (Prod.ext_iff.2 ⟨h.symm, hq2⟩) hqO
      · exact h
    have hzero : (p.2 - O.2) * (q.2 - O.2) = 0 := by
      rw [← h2]; ring
    have hpos : 0 < (p.1 - O.1) * (q.1 - O.1) :=
      mul_pos (by linarith) (by linarith)
    linarith
  · -- p strictly above the pivot row
    have hq2 : O.2 < q.2 := by
      rcases eq_or_lt_of_le hq.1 with h | h
      · exfalso
        have hz : (p.2 - O.2) * (q.1 - O.1) = 0 := by
          linear_combination (-1 : ℚ) * h0' - (p.1 - O.1) * h
        rcases mul_eq_zero.1 hz with hh | hh
        · exact absurd hh (sub_ne_zero.2 (ne_of_gt h2))
        · exact hqO (Prod.ext_iff.2 ⟨by linarith, h.symm⟩)
      · exact h
    by_contra hc
    push_neg at hc
    have hkey : ((p.1 - O.1) * (q.1 - O.1) + (p.2 - O.2) * (q.2 - O.2)) * (p.2 - O.2) =
        (q.2 - O.2) * ((p.1 - O.1) * (p.1 - O.1) + (p.2 - O.2) * (p.2 - O.2)) := by
      linear_combination (-(p.1 - O.1)) * h0'
    have hd : 0 < (p.1 - O.1) * (p.1 - O.1) + (p.2 - O.2) * (p.2 - O.2) :=
      vdot_self_pos O p hpO
    have hrhs : 0 < (q.2 - O.2) * ((p.1 - O.1) * (p.1 - O.1) + (p.2 - O.2) * (p.2 - O.2)) :=
      mul_pos (by linarith) hd
    nlinarith [hkey, hrhs,
      mul_nonpos_of_nonpos_of_nonneg hc (by linarith : (0:ℚ) ≤ p.2 - O.2)]

/-- With a point `z` strictly left of the edge `a → b` and angularly after
`a`, the adjacency relation for `(a, b)` forces a strictly positive bracket:
the collinear-shorter alternative would make the pop-stop condition
impossible. -/
theorem adjStrict (O a b z : Point) (hadj : AdjPairP O a b)
    (haz : 0 ≤ cross_product O a z) (hS : 0 < cross_product a b z) :
    0 < cross_product O a b := by
  rcases hadj with h | ⟨h0, hd1, hd2⟩
  · exact h
  · exfalso
    have eaa : vdot (vsub a O) (vsub a O) =
        (a.1 - O.1) * (a.1 - O.1) + (a.2 - O.2) * (a.2 - O.2) := rfl
    have eab : vdot (vsub a O) (vsub b O) =
        (a.1 - O.1) * (b.1 - O.1) + (a.2 - O.2) * (b.2 - O.2) := rfl
    have eaz : vdot (vsub a O) (vsub z O) =
        (a.1 - O.1) * (z.1 - O.1) + (a.2 - O.2) * (z.2 - O.2) := rfl
    have hdaa : 0 < vdot (vsub a O) (vsub a O) := lt_trans hd1 hd2
    have idt : vdot (vsub a O) (vsub a O) * cross_product a b z =
        cross_product O a b * (vdot (vsub a O) (vsub a O) - vdot (vsub a O) (vsub z O)) +
          cross_product O a z * (vdot (vsub a O) (vsub b O) - vdot (vsub a O) (vsub a O)) := by
      rw [eaa, eab, eaz]
      unfold cross_product
      ring
    rw [h0, zero_mul, zero_add] at idt
    have hleft : 0 < vdot (vsub a O) (vsub a O) * cross_product a b z :=
      mul_pos hdaa hS
    rw [idt] at hleft
    nlinarith [mul_nonneg haz (show 0 ≤ vdot (vsub a O) (vsub a O) -
      vdot (vsub a O) (vsub b O) by linarith)]

/-- The new adjacency pair after a push: the bracket of the stopped top `b`
and the new point `z` is positive, or the two are collinear through the pivot
with `z` strictly shorter. -/
theorem adjNew (O a b z : Point) (hb : upper O b) (hz : upper O z)
    (hbO : b ≠ O) (hzO : z ≠ O) (hbz : 0 ≤ cross_product O b z)
    (hab : 0 ≤ cross_product O a b) (hS : 0 < cross_product a b z) :
    AdjPairP O b z := by
  rcases lt_or_eq_of_le hbz with h | h
  · exact Or.inl h
  · have h0 : cross_product O b z = 0 := h.symm
    have hdp := upper_collinear_dot_pos O b z hb hz hbO hzO h0
    have hdbb := vdot_self_pos O b hbO
    have ebb : vdot (vsub b O) (vsub b O) =
        (b.1 - O.1) * (b.1 - O.1) + (b.2 - O.2) * (b.2 - O.2) := rfl
    have ebz : vdot (vsub b O) (vsub z O) =
        (b.1 - O.1) * (z.1 - O.1) + (b.2 - O.2) * (z.2 - O.2) := rfl
    have eab : vdot (vsub a O) (vsub b O) =
        (a.1 - O.1) * (b.1 - O.1) + (a.2 - O.2) * (b.2 - O.2) := rfl
    have idt : vdot (vsub b O) (vsub b O) * cross_product a b z =
        cross_product O a b * (vdot (vsub b O) (vsub b O) - vdot (vsub b O) (vsub z O)) +
          cross_product O b z * (vdot (vsub b O) (vsub b O) - vdot (vsub a O) (vsub b O)) := by
      rw [ebb, ebz, eab]
      unfold cross_product
      ring
    rw [h0, zero_mul, add_zero] at idt
    have hleft : 0 < cross_product O a b *
        (vdot (vsub b O) (vsub b O) - vdot (vsub b O) (vsub z O)) := by
      rw [← idt]; exact mul_pos hdbb hS
    have hlt : vdot (vsub b O) (vsub z O) < vdot (vsub b O) (vsub b O) := by
      by_contra hc
      push_neg at hc
      nlinarith [mul_nonneg hab (show 0 ≤ vdot (vsub b O) (vsub z O) -
        vdot (vsub b O) (vsub b O) by linarith)]
    exact Or.inr ⟨h0, hdp, hlt⟩

/-! ### Pivot and sort-key semantics -/

/-- The lowest-then-leftmost order used by the pivot selection. -/
def lexLe (a b : Point) : Prop := a.2 < b.2 ∨ (a.2 = b.2 ∧ a.1 ≤ b.1)

theorem lexLe_refl (a : Point) : lexLe a a := Or.inr ⟨rfl, le_refl _⟩

theorem lexLe_trans {a b c : Point} (h1 : lexLe a b) (h2 : lexLe b c) : lexLe a c := by
  rcases h1 with h | ⟨h, h'⟩ <;> rcases h2 with g | ⟨g, g'⟩
  · exact Or.inl (h.trans g)
  · exact Or.inl (g ▸ h)
  · exact Or.inl (h ▸ g)
  · exact Or.inr ⟨h.trans g, h'.trans g'⟩

theorem pivot_fold_spec (xs : List Point) : ∀ acc : Point,
    (xs.foldl (fun acc q => if q.2 < acc.2 ∨ (q.2 = acc.2 ∧ q.1 < acc.1) then q else acc) acc
        = acc ∨
      xs.foldl (fun acc q => if q.2 < acc.2 ∨ (q.2 = acc.2 ∧ q.1 < acc.1) then q else acc) acc
        ∈ xs) ∧
    lexLe (xs.foldl (fun acc q => if q.2 < acc.2 ∨ (q.2 = acc.2 ∧ q.1 < acc.1) then q else acc)
      acc) acc ∧
    ∀ p ∈ xs, lexLe
      (xs.foldl (fun acc q => if q.2 < acc.2 ∨ (q.2 = acc.2 ∧ q.1 < acc.1) then q else acc) acc)
      p := by
  induction xs with
  | nil =>
    intro acc
    exact ⟨Or.inl rfl, lexLe_refl acc, by simp⟩
  | cons x xs ih =>
    intro acc
    simp only [List.foldl_cons]
    by_cases hx : x.2 < acc.2 ∨ (x.2 = acc.2 ∧ x.1 < acc.1)
    · rw [if_pos hx]
      obtain ⟨m, hle, hall⟩ := ih x
      have hxacc : lexLe x acc := by
        rcases hx with h | ⟨h, h'⟩
        · exact Or.inl h
        · exact Or.inr ⟨h, le_of_lt h'⟩
      refine ⟨?_, lexLe_trans hle hxacc, ?_⟩
      · rcases m with h | h
        · refine Or.inr ?_
          rw [h]
          exact List.mem_cons_self x xs
        · exact Or.inr (List.mem_cons_of_mem x h)
      · intro p hp
        rcases List.mem_cons.1 hp with h | h
        · exact h ▸ hle
        · exact hall p h
    · rw [if_neg hx]
      obtain ⟨m, hle, hall⟩ := ih acc
      push_neg at hx
      have haccx : lexLe acc x := by
        rcases lt_or_eq_of_le hx.1 with h | h
        · exact Or.inl h
        · exact Or.inr ⟨h, hx.2 h.symm⟩
      refine ⟨?_, hle, ?_⟩
      · rcases m with h | h
        · exact Or.inl h
        · exact Or.inr (List.mem_cons_of_mem x h)
      · intro p hp
        rcases List.mem_cons.1 hp with h | h
        · exact h ▸ lexLe_trans hle haccx
        · exact hall p h

theorem pivotMin_cons (p : Point) (rest : List Point) :
    pivotMin (p :: rest) =
      rest.foldl (fun acc r => if r.2 < acc.2 ∨ (r.2 = acc.2 ∧ r.1 < acc.1) then r else acc) p := rfl

theorem pivotMin_mem (points : List Point) (h : points ≠ []) : pivotMin points ∈ points := by
  cases points with
  | nil => exact absurd rfl h
  | cons p rest =>
    rw [pivotMin_cons]
    obtain ⟨m, _, _⟩ := pivot_fold_spec rest p
    rcases m with h1 | h1
    · rw [h1]
      exact List.mem_cons_self p rest
    · exact List.mem_cons_of_mem p h1

theorem pivotMin_lexLe (points : List Point) :
    ∀ p ∈ points, lexLe (pivotMin points) p := by
  cases points with
  | nil => simp
  | cons p rest =>
    intro q hq
    rw [pivotMin_cons]
    obtain ⟨_, hle, hall⟩ := pivot_fold_spec rest p
    rcases List.mem_cons.1 hq with h | h
    · rw [h]
      exact hle
    · exact hall q h

theorem upper_of_lexLe {O p : Point} (h : lexLe O p) : upper O p := by
  rcases h with h | ⟨h, h'⟩
  · exact ⟨le_of_lt h, fun hh => absurd hh (by linarith)⟩
  · exact ⟨le_of_eq h, fun _ => h'⟩

theorem angleClass_pos (u : Point) : 0 < angleClass u := by
  unfold angleClass
  split <;> [skip; split] <;> [omega; omega; split <;> omega]

theorem polarKey_self (O : Point) : polarKey O O = (0, 0) := by
  unfold polarKey
  rw [if_pos rfl]

/-- Only the pivot itself can sort at or before the pivot key. -/
theorem keyLe_to_O {O x : Point} (h : keyLe O x O) : x = O := by
  by_contra hx
  unfold keyLe at h
  rw [polarKey_self] at h
  have hk : polarKey O x = (angleClass (vsub x O), angleSlope (vsub x O)) := by
    unfold polarKey
    rw [if_neg hx]
  rcases h with h | ⟨h, _⟩
  · rw [hk] at h
    exact absurd h (by simp)
  · rw [hk] at h
    exact absurd h (by simpa using (angleClass_pos (vsub x O)).ne.symm)

theorem keyLe_O_bot (O p : Point) : keyLe O O p := by
  unfold keyLe
  rw [polarKey_self]
  by_cases hp : p = O
  · subst hp
    rw [polarKey_self]
    exact Or.inr ⟨rfl, le_refl _⟩
  · left
    unfold polarKey
    rw [if_neg hp]
    exact angleClass_pos (vsub p O)

/-- Upper-half points have angle class 2 (pivot row, rightwards) or
3 (strictly above). -/
theorem angleClass_of_upper (O p : Point) (hp : upper O p) (hpO : p ≠ O) :
    (angleClass (vsub p O) = 2 ∧ (vsub p O).2 = 0 ∧ 0 ≤ (vsub p O).1) ∨
      (angleClass (vsub p O) = 3 ∧ 0 < (vsub p O).2) := by
  have h2 : 0 ≤ (vsub p O).2 := by
    have := hp.1
    show (0:ℚ) ≤ p.2 - O.2
    linarith
  rcases eq_or_lt_of_le h2 with h | h
  · left
    have h1 : 0 ≤ (vsub p O).1 := by
      have hpp : p.2 = O.2 := by
        have h' : p.2 - O.2 = 0 := h.symm
        linarith
      have := hp.2 hpp
      show (0:ℚ) ≤ p.1 - O.1
      linarith
    refine ⟨?_, h.symm, h1⟩
    unfold angleClass
    rw [if_neg (by rw [← h]; exact lt_irrefl _), if_neg (by rw [← h]; exact lt_irrefl _),
      if_pos h1]
  · right
    refine ⟨?_, h⟩
    unfold angleClass
    rw [if_neg (by linarith), if_pos h]

/-- Sorting by polar key is compatible with orientation: for upper-half
points, an earlier key means a nonnegative bracket. -/
theorem key_cross (O p q : Point) (hp : upper O p) (hq : upper O q)
    (hk : keyLe O p q) : 0 ≤ cross_product O p q := by
  by_cases hpO : p = O
  · rw [hpO]
    rw [cross_product_self_left]
  · by_cases hqO : q = O
    · exact absurd (keyLe_to_O (hqO ▸ hk)) hpO
    · have hkp : polarKey O p = (angleClass (vsub p O), angleSlope (vsub p O)) := by
        unfold polarKey
        rw [if_neg hpO]
      have hkq : polarKey O q = (angleClass (vsub q O), angleSlope (vsub q O)) := by
        unfold polarKey
        rw [if_neg hqO]
      have hcross : cross_product O p q =
          (vsub p O).1 * (vsub q O).2 - (vsub p O).2 * (vsub q O).1 := rfl
      rcases angleClass_of_upper O p hp hpO with ⟨hc2, hy0, hx0⟩ | ⟨hc3, hy3⟩ <;>
        rcases angleClass_of_upper O q hq hqO with ⟨gc2, gy0, gx0⟩ | ⟨gc3, gy3⟩
      · -- both on the pivot row
        rw [hcross, hy0, gy0]
        simp
      · -- p on the row, q above
        rw [hcross, hy0]
        have : 0 ≤ (vsub p O).1 * (vsub q O).2 := mul_nonneg hx0 (le_of_lt gy3)
        linarith
      · -- p above, q on the row: impossible by key order
        exfalso
        unfold keyLe at hk
        rw [hkp, hkq, hc3, gc2] at hk
        rcases hk with h | ⟨h, _⟩
        · omega
        · omega
      · -- both strictly above: compare slopes
        unfold keyLe at hk
        rw [hkp, hkq, hc3, gc3] at hk
        have hs : angleSlope (vsub p O) ≤ angleSlope (vsub q O) := by
          rcases hk with h | ⟨_, h⟩
          · omega
          · exact h
        unfold angleSlope at hs
        rw [if_neg (by linarith : ¬(vsub p O).2 = 0), if_neg (by linarith : ¬(vsub q O).2 = 0)]
          at hs
        have hdiv : (vsub q O).1 / (vsub q O).2 ≤ (vsub p O).1 / (vsub p O).2 := by linarith
        have := (div_le_div_iff gy3 hy3).1 hdiv
        rw [hcross]
        nlinarith [this]

/-! ### Stack predicates and pop-loop lemmas -/

/-- All in-order triples of the stack (stored top-first, so a sublist
`[r, q, p]` lists `p` below `q` below `r`) make a nonnegative turn. -/
def TripS (S : List Point) : Prop :=
  ∀ p q r : Point, ([r, q, p] : List Point).Sublist S → 0 ≤ cross_product p q r

/-- The Graham-scan stack invariant at pivot `O`: the stack is nonempty with
`O` at the bottom, every higher element is a non-pivot upper point, adjacent
pairs satisfy the adjacency relation, and all in-order triples turn left. -/
def ScanInv (O : Point) (S : List Point) : Prop :=
  S ≠ [] ∧ S.getLast? = some O ∧ (∀ x ∈ S.dropLast, x ≠ O ∧ upper O x) ∧
    List.Chain' (fun x y => y = O ∨ AdjPairP O y x) S ∧ TripS S

theorem TripS.sublist {S' S : List Point} (hs : S'.Sublist S) (h : TripS S) : TripS S' :=
  fun p q r hpqr => h p q r (hpqr.trans hs)

theorem popWhile_cons_cons (p b a : Point) (r : List Point) :
    popWhile p (b :: a :: r) =
      if cross_product a b p ≤ 0 then popWhile p (a :: r) else b :: a :: r := rfl

theorem popWhile_suffix (p : Point) (s : List Point) : (popWhile p s).IsSuffix s := by
  induction s with
  | nil => exact List.suffix_refl _
  | cons b rest ih =>
    cases rest with
    | nil => exact List.suffix_refl _
    | cons a r =>
      rw [popWhile_cons_cons]
      split
      · exact ih.trans (List.suffix_cons b _)
      · exact List.suffix_refl _

theorem popWhile_ne_nil (p : Point) (s : List Point) (h : s ≠ []) : popWhile p s ≠ [] := by
  induction s with
  | nil => exact absurd rfl h
  | cons b rest ih =>
    cases rest with
    | nil => simp [popWhile]
    | cons a r =>
      rw [popWhile_cons_cons]
      split
      · exact ih (by simp)
      · simp

theorem popWhile_stop (p : Point) (s : List Point) {b a : Point} {r : List Point}
    (h : popWhile p s = b :: a :: r) : 0 < cross_product a b p := by
  induction s with
  | nil => exact absurd h (by simp [popWhile])
  | cons x xs ih =>
    cases xs with
    | nil => exact absurd h (by simp [popWhile])
    | cons y t =>
      rw [popWhile_cons_cons] at h
      by_cases hc : cross_product y x p ≤ 0
      · rw [if_pos hc] at h
        exact ih h
      · rw [if_neg hc] at h
        have hb : x = b := (List.cons.inj h).1
        have ha : y = a := (List.cons.inj (List.cons.inj h).2.symm).1.symm
        push_neg at hc
        rw [← hb, ← ha]
        exact hc

theorem popWhile_getLast? (p : Point) (s : List Point) :
    s ≠ [] → (popWhile p s).getLast? = s.getLast? := by
  induction s with
  | nil => intro h; exact absurd rfl h
  | cons b rest ih =>
    intro _
    cases rest with
    | nil => rfl
    | cons a r =>
      rw [popWhile_cons_cons]
      split
      · rw [ih (by simp)]
        rfl
      · rfl

theorem upper_refl (O : Point) : upper O O := ⟨le_refl _, fun _ => le_refl _⟩

/-- A pair deep in an `O`-bottomed stack extends to a triple ending at `O`. -/
theorem pair_extend_O (O x y : Point) (S : List Point) (hlast : S.getLast? = some O)
    (hx : x ≠ O) (hxy : ([y, x] : List Point).Sublist S) :
    ([y, x, O] : List Point).Sublist S := by
  have hdec : S.dropLast ++ [O] = S := dropLast_append_getLast?_eq S O hlast
  rw [← hdec] at hxy ⊢
  rcases List.sublist_append_iff.1 hxy with ⟨l₁, l₂, heq, h₁, h₂⟩
  cases l₂ with
  | nil =>
    rw [List.append_nil] at heq
    rw [← heq] at h₁
    exact h₁.append (List.Sublist.refl [O])
  | cons e t =>
    rcases List.sublist_cons_iff.1 h₂ with h | ⟨r, hr, hrt⟩
    · simp at h
    · have he : e = O := (List.cons.inj hr).1
      have ht : t = [] := by
        have := (List.cons.inj hr).2 ▸ hrt
        cases t with
        | nil => rfl
        | cons f u =>
          rw [← (List.cons.inj hr).2] at hrt
          simp at hrt
      subst he ht
      -- [y, x] = l₁ ++ [O] forces x = O
      exfalso
      cases l₁ with
      | nil => simp at heq
      | cons w ws =>
        cases ws with
        | nil =>
          have := (List.cons.inj heq).2
          exact hx (List.cons.inj this).1
        | cons w2 ws2 =>
          have hlen := congrArg List.length heq
          simp at hlen

/-- `O` occurs only at the bottom of the stack: no sublist puts it above
another element. -/
theorem no_O_above (O x : Point) (S : List Point) (hlast : S.getLast? = some O)
    (hdrop : ∀ y ∈ S.dropLast, y ≠ O) (hsub : ([O, x] : List Point).Sublist S) :
    False := by
  have hdec : S.dropLast ++ [O] = S := dropLast_append_getLast?_eq S O hlast
  rw [← hdec] at hsub
  rcases List.sublist_append_iff.1 hsub with ⟨l₁, l₂, heq, h₁, h₂⟩
  have hO_mem : O ∈ l₁ := by
    cases l₂ with
    | nil =>
      rw [List.append_nil] at heq
      rw [← heq]
      exact List.mem_cons_self O [x]
    | cons e t =>
      rcases List.sublist_cons_iff.1 h₂ with h | ⟨r, hr, hrt⟩
      · simp at h
      · have ht : t = [] := by
          cases t with
          | nil => rfl
          | cons f u =>
            rw [← (List.cons.inj hr).2] at hrt
            simp at hrt
        subst ht
        cases l₁ with
        | nil =>
          exfalso
          have hlen := congrArg List.length heq
          simp at hlen
        | cons w ws =>
          cases ws with
          | nil =>
            have hw : w = O := ((List.cons.inj heq).1).symm
            rw [hw]
            exact List.mem_cons_self O []
          | cons w2 ws2 =>
            exfalso
            have hlen := congrArg List.length heq
            simp at hlen
  exact hdrop O (h₁.subset hO_mem) rfl

/-- Any in-order pair of an `O`-bottomed stack with nonnegative triples has a
nonnegative bracket. -/
theorem pair_bracket (O : Point) (S : List Point) (hlast : S.getLast? = some O)
    (htrip : TripS S) {x y : Point} (hxy : ([y, x] : List Point).Sublist S) :
    0 ≤ cross_product O x y := by
  by_cases hx : x = O
  · rw [hx, cross_product_self_left]
  · exact htrip O x y (pair_extend_O O x y S hlast hx hxy)

theorem sublist_head_pair {α : Type} (b p : α) (l : List α)
    (h : ([p] : List α).Sublist l) : ([b, p] : List α).Sublist (b :: l) :=
  List.Sublist.cons₂ b h

/-- One step of the Graham scan preserves the stack invariant. -/
theorem scan_step (O z : Point) (S : List Point)
    (hinv : ScanInv O S) (hzO : z ≠ O) (hzup : upper O z)
    (hkey : ∀ x ∈ S, keyLe O x z) :
    ScanInv O (z :: popWhile z S) := by
  obtain ⟨hne, hlast, hdrop, hchain, htrip⟩ := hinv
  have hsuf := popWhile_suffix z S
  have hsub : (popWhile z S).Sublist S := hsuf.sublist
  have hne' : popWhile z S ≠ [] := popWhile_ne_nil z S hne
  have hlast' : (popWhile z S).getLast? = some O := by
    rw [popWhile_getLast? z S hne]; exact hlast
  have hdrop' : ∀ x ∈ (popWhile z S).dropLast, x ≠ O ∧ upper O x := by
    obtain ⟨t, ht⟩ := hsuf
    intro x hx
    apply hdrop
    rw [← ht, List.dropLast_append_of_ne_nil t hne']
    exact List.mem_append_right t hx
  have hchain' : List.Chain' (fun x y => y = O ∨ AdjPairP O y x) (popWhile z S) := by
    obtain ⟨t, ht⟩ := hsuf
    rw [← ht] at hchain
    exact (List.chain'_append.1 hchain).2.1
  have htrip' : TripS (popWhile z S) := TripS.sublist hsub htrip
  have hupS : ∀ x ∈ S, upper O x := by
    intro x hx
    have hdec : S.dropLast ++ [O] = S := dropLast_append_getLast?_eq S O hlast
    rw [← hdec] at hx
    rcases List.mem_append.1 hx with h | h
    · exact (hdrop x h).2
    · rw [List.mem_singleton.1 h]
      exact upper_refl O
  have hzS : ∀ x ∈ S, 0 ≤ cross_product O x z := fun x hx =>
    key_cross O x z (hupS x hx) hzup (hkey x hx)
  cases hpop : popWhile z S with
  | nil => exact absurd hpop hne'
  | cons b rest =>
    rw [hpop] at hlast' hdrop' hchain' htrip' hsub hne'
    cases rest with
    | nil =>
      have hbO : b = O := by simpa using hlast'
      rw [hbO]
      refine ⟨by simp, by rfl, ?_, ?_, ?_⟩
      · intro x hx
        have hx' : x = z := by simpa using hx
        rw [hx']
        exact ⟨hzO, hzup⟩
      · exact List.chain'_cons.2 ⟨Or.inl rfl, List.chain'_singleton O⟩
      · intro p q w hw
        have := hw.length_le
        simp at this
    | cons a r =>
      have hstop : 0 < cross_product a b z := popWhile_stop z S hpop
      have hbmem : b ∈ S := hsub.subset (List.mem_cons_self b (a :: r))
      have hamem : a ∈ S := hsub.subset (by simp)
      have hb_drop : b ≠ O ∧ upper O b := by
        apply hdrop'
        simp [List.dropLast]
      have hab_pair : 0 ≤ cross_product O a b := by
        apply pair_bracket O S hlast htrip
        exact (List.Sublist.cons₂ b (List.Sublist.cons₂ a (List.nil_sublist r))).trans hsub
      refine ⟨by simp, ?_, ?_, ?_, ?_⟩
      · show (z :: b :: a :: r).getLast? = some O
        rw [List.getLast?_cons_cons]
        exact hlast'
      · intro x hx
        have hx' : x ∈ z :: (b :: a :: r).dropLast := by
          simpa [List.dropLast] using hx
        rcases List.mem_cons.1 hx' with h | h
        · rw [h]
          exact ⟨hzO, hzup⟩
        · exact hdrop' x h
      · refine List.chain'_cons.2 ⟨?_, hchain'⟩
        right
        exact adjNew O a b z hb_drop.2 hzup hb_drop.1 hzO (hzS b hbmem) hab_pair hstop
      · -- all in-order triples of the new stack turn left
        intro p q w hw
        rcases List.sublist_cons_iff.1 hw with hcase | ⟨tail3, htl3, htl3sub⟩
        · exact htrip' p q w hcase
        · have hwz : w = z := (List.cons.inj htl3).1
          have htail : [q, p] = tail3 := (List.cons.inj htl3).2
          rw [← htail] at htl3sub
          rw [hwz]
          by_cases hpO : p = O
          · rw [hpO]
            have hqmem : q ∈ S :=
              hsub.subset (htl3sub.subset (by simp))
            exact hzS q hqmem
          · have haO : a ≠ O := by
              intro haO'
              cases r with
              | nil =>
                have hlen : ([q, p] : List Point).length = ([b, a] : List Point).length := by
                  have h1 := htl3sub.length_le
                  simp at h1 ⊢
                have heq2 := htl3sub.eq_of_length (by simp)
                have hpa : p = a := (List.cons.inj (List.cons.inj heq2).2).1
                exact hpO (hpa.trans haO')
              | cons f r' =>
                exact (hdrop' a (by simp [List.dropLast])).1 haO'
            have hadj : AdjPairP O a b := by
              rcases (List.chain'_cons.1 hchain').1 with h | h
              · exact absurd h haO
              · exact h
            have habS : 0 < cross_product O a b :=
              adjStrict O a b z hadj (hzS a hamem) hstop
            rcases List.sublist_cons_iff.1 htl3sub with hqp | ⟨t4, ht4, ht4sub⟩
            · -- q is strictly below the top `b`: five-point lemma
              have hqmem_ar : q ∈ a :: r := hqp.subset (List.mem_cons_self q [p])
              have hpmem_ar : p ∈ a :: r := hqp.subset (by simp)
              have hqmemS : q ∈ S := hsub.subset (List.mem_cons_of_mem b hqmem_ar)
              have hpmemS : p ∈ S := hsub.subset (List.mem_cons_of_mem b hpmem_ar)
              have hpq : 0 ≤ cross_product O p q :=
                pair_bracket O S hlast htrip ((List.Sublist.cons b hqp).trans hsub)
              have hpb : 0 ≤ cross_product O p b := by
                apply pair_bracket O S hlast htrip
                exact ((List.Sublist.cons₂ b (List.singleton_sublist.2 hpmem_ar)).trans hsub)
              have hqb : 0 ≤ cross_product O q b := by
                apply pair_bracket O S hlast htrip
                exact ((List.Sublist.cons₂ b (List.singleton_sublist.2 hqmem_ar)).trans hsub)
              have hT2 : 0 ≤ cross_product p q b :=
                htrip' p q b (List.Sublist.cons₂ b hqp)
              rcases List.sublist_cons_iff.1 hqp with hqp2 | ⟨t5, ht5, ht5sub⟩
              · -- both p and q strictly below a
                have hq_r : ([q] : List Point).Sublist r :=
                  (List.Sublist.cons₂ q (List.nil_sublist [p])).trans hqp2
                have hp_r : ([p] : List Point).Sublist r :=
                  (List.Sublist.cons q (List.Sublist.refl [p])).trans hqp2
                have hqa : 0 ≤ cross_product O q a := by
                  apply pair_bracket O S hlast htrip
                  exact (List.Sublist.cons b (List.Sublist.cons₂ a hq_r)).trans hsub
                have hpa : 0 ≤ cross_product O p a := by
                  apply pair_bracket O S hlast htrip
                  exact (List.Sublist.cons b (List.Sublist.cons₂ a hp_r)).trans hsub
                have hT1 : 0 ≤ cross_product p q a :=
                  htrip' p q a (List.Sublist.cons b (List.Sublist.cons₂ a hqp2))
                have hT4 : 0 ≤ cross_product q a b :=
                  htrip' q a b (List.Sublist.cons₂ b (List.Sublist.cons₂ a hq_r))
                exact atom5 O p q a b z hpq hpa hpb (hzS p hpmemS) hqa hqb
                  (hzS q hqmemS) (hzS a hamem) (hzS b hbmem) habS hT1 hT2 hT4 hstop
              · -- q coincides with a
                have hq_a : q = a := (List.cons.inj ht5).1
                have ht5' : [p] = t5 := (List.cons.inj ht5).2
                rw [← ht5'] at ht5sub
                have hpa : 0 ≤ cross_product O p a := by
                  apply pair_bracket O S hlast htrip
                  exact (List.Sublist.cons b (List.Sublist.cons₂ a ht5sub)).trans hsub
                have hqa : 0 ≤ cross_product O q a := by
                  rw [hq_a, cross_product_self_right]
                have hT1 : 0 ≤ cross_product p q a := by
                  rw [hq_a, cross_product_self_right]
                have hT4 : 0 ≤ cross_product q a b := by
                  rw [hq_a, cross_product_self_left]
                exact atom5 O p q a b z hpq hpa hpb (hzS p hpmemS) hqa hqb
                  (hzS q hqmemS) (hzS a hamem) (hzS b hbmem) habS hT1 hT2 hT4 hstop
            · -- q coincides with the top `b`: chord lemma
              have hq_b : q = b := (List.cons.inj ht4).1
              have ht4' : [p] = t4 := (List.cons.inj ht4).2
              rw [← ht4'] at ht4sub
              have hpmem_ar : p ∈ a :: r := by simpa using ht4sub.subset (by simp)
              have hxb : 0 ≤ cross_product O p b := by
                apply pair_bracket O S hlast htrip
                exact ((List.Sublist.cons₂ b ht4sub).trans hsub)
              have hT : 0 ≤ cross_product p a b := by
                rcases List.mem_cons.1 hpmem_ar with h | h
                · rw [h, cross_product_self_left]
                · exact htrip' p a b
                    (List.Sublist.cons₂ b (List.Sublist.cons₂ a (List.singleton_sublist.2 h)))
              rw [hq_b]
              exact atomA O p a b z hxb (hzS b hbmem) habS hT (le_of_lt hstop)

/-! ### The scan fold -/

theorem scanInv_single (O : Point) : ScanInv O [O] := by
  refine ⟨by simp, rfl, by simp, List.chain'_singleton O, ?_⟩
  intro p q w hw
  have := hw.length_le
  simp at this

/-- The scan fold preserves the invariant and only accumulates points from
the stack or the remaining input. -/
theorem scan_fold_inv (O : Point) (rest : List Point) : ∀ S : List Point,
    ScanInv O S →
    (∀ z ∈ rest, z ≠ O ∧ upper O z) →
    (∀ x ∈ S, ∀ z ∈ rest, keyLe O x z) →
    List.Pairwise (keyLe O) rest →
    ScanInv O (rest.foldl (fun hull p => p :: popWhile p hull) S) ∧
      ∀ x ∈ rest.foldl (fun hull p => p :: popWhile p hull) S, x ∈ S ∨ x ∈ rest := by
  induction rest with
  | nil =>
    intro S hinv _ _ _
    exact ⟨hinv, fun x hx => Or.inl hx⟩
  | cons z rest' ih =>
    intro S hinv hall hkeys hpair
    rw [List.foldl_cons]
    have hz := hall z (List.mem_cons_self z rest')
    have hstep : ScanInv O (z :: popWhile z S) :=
      scan_step O z S hinv hz.1 hz.2 (fun x hx => hkeys x hx z (List.mem_cons_self z rest'))
    have hkeys' : ∀ x ∈ z :: popWhile z S, ∀ z' ∈ rest', keyLe O x z' := by
      intro x hx z' hz'
      rcases List.mem_cons.1 hx with h | h
      · rw [h]
        exact (List.pairwise_cons.1 hpair).1 z' hz'
      · exact hkeys x ((popWhile_suffix z S).sublist.subset h) z' (List.mem_cons_of_mem z hz')
    obtain ⟨hinv', hmem'⟩ := ih (z :: popWhile z S) hstep
      (fun w hw => hall w (List.mem_cons_of_mem z hw)) hkeys'
      (List.pairwise_cons.1 hpair).2
    refine ⟨hinv', ?_⟩
    intro x hx
    rcases hmem' x hx with h | h
    · rcases List.mem_cons.1 h with h' | h'
      · exact Or.inr (h' ▸ List.mem_cons_self z rest')
      · exact Or.inl ((popWhile_suffix z S).sublist.subset h')
    · exact Or.inr (List.mem_cons_of_mem z h)

theorem foldl_O_aux (O : Point) (ds : List Point) : ∀ S : List Point,
    (∀ x ∈ ds, x = O) → (S = [O] ∨ S = [O, O]) →
    (ds.foldl (fun hull p => p :: popWhile p hull) S = [O] ∨
      ds.foldl (fun hull p => p :: popWhile p hull) S = [O, O]) := by
  induction ds with
  | nil => intro S _ hS; exact hS
  | cons d ds' ih =>
    intro S hall hS
    rw [List.foldl_cons]
    have hd : d = O := hall d (List.mem_cons_self d ds')
    apply ih _ (fun x hx => hall x (List.mem_cons_of_mem d hx))
    right
    have hOO : cross_product O O O ≤ 0 := le_of_eq (cross_product_self_left O O)
    rcases hS with h | h <;> rw [h, hd]
    · rfl
    · show O :: popWhile O [O, O] = [O, O]
      rw [popWhile_cons_cons, if_pos hOO]
      rfl

/-- Processing the first non-pivot point from either post-pivot stack state
yields the two-element stack `[z, O]`. -/
theorem first_nonO_step (O z : Point) (S : List Point) (hS : S = [O] ∨ S = [O, O]) :
    z :: popWhile z S = [z, O] := by
  rcases hS with h | h <;> rw [h]
  · rfl
  · rw [popWhile_cons_cons, if_pos (le_of_eq (cross_product_self_left O z))]
    rfl

theorem scanInv_two (O z : Point) (hzO : z ≠ O) (hzup : upper O z) :
    ScanInv O [z, O] := by
  refine ⟨by simp, rfl, ?_, ?_, ?_⟩
  · intro x hx
    have : x = z := by simpa using hx
    rw [this]
    exact ⟨hzO, hzup⟩
  · exact List.chain'_cons.2 ⟨Or.inl rfl, List.chain'_singleton O⟩
  · intro p q w hw
    have := hw.length_le
    simp at this

theorem dropWhile_ne_O (O : Point) (L : List Point) (hs : List.Sorted (keyLe O) L) :
    ∀ z ∈ L.dropWhile (fun x => decide (x = O)), z ≠ O := by
  induction L with
  | nil => simp
  | cons h t ih =>
    by_cases hh : h = O
    · rw [List.dropWhile_cons, if_pos (by simpa using hh)]
      exact ih hs.of_cons
    · rw [List.dropWhile_cons, if_neg (by simpa using hh)]
      intro z hz
      rcases List.mem_cons.1 hz with h1 | h1
      · rw [h1]; exact hh
      · intro hzO
        rw [hzO] at h1
        exact hh (keyLe_to_O ((List.sorted_cons.1 hs).1 O h1))

theorem convex_hull_eq_scan (pts : List Point) (h3 : ¬ pts.length < 3) :
    convex_hull pts = ((List.insertionSort (keyLe (pivotMin pts)) pts).foldl
      (fun hull p => p :: popWhile p hull) []).reverse := by
  unfold convex_hull
  rw [if_neg h3]

/-- The Graham scan of at least three points produces a degenerate one- or
two-point stack of pivots, or a stack satisfying the full invariant, with all
elements drawn from the input. -/
theorem convex_hull_cases (pts : List Point) (h3 : ¬ pts.length < 3) :
    convex_hull pts = [pivotMin pts] ∨
    convex_hull pts = [pivotMin pts, pivotMin pts] ∨
    ∃ F : List Point, ScanInv (pivotMin pts) F ∧ convex_hull pts = F.reverse ∧
      ∀ x ∈ F, x ∈ pts := by
  have hne : pts ≠ [] := by
    intro h
    rw [h] at h3
    exact h3 (by simp)
  have hOmem : pivotMin pts ∈ pts := pivotMin_mem pts hne
  have hupx : ∀ p ∈ pts, upper (pivotMin pts) p := fun p hp =>
    upper_of_lexLe (pivotMin_lexLe pts p hp)
  rw [convex_hull_eq_scan pts h3]
  have hperm : (List.insertionSort (keyLe (pivotMin pts)) pts).Perm pts :=
    List.perm_insertionSort _ _
  have hsorted : List.Sorted (keyLe (pivotMin pts))
      (List.insertionSort (keyLe (pivotMin pts)) pts) :=
    List.sorted_insertionSort _ _
  have hsplit : (List.insertionSort (keyLe (pivotMin pts)) pts).takeWhile
        (fun x => decide (x = pivotMin pts)) ++
      (List.insertionSort (keyLe (pivotMin pts)) pts).dropWhile
        (fun x => decide (x = pivotMin pts)) =
      List.insertionSort (keyLe (pivotMin pts)) pts :=
    List.takeWhile_append_dropWhile _ _
  have hds : ∀ x ∈ (List.insertionSort (keyLe (pivotMin pts)) pts).takeWhile
      (fun x => decide (x = pivotMin pts)), x = pivotMin pts := by
    intro x hx
    have := List.mem_takeWhile_imp hx
    simpa using this
  have hrest_ne : ∀ z ∈ (List.insertionSort (keyLe (pivotMin pts)) pts).dropWhile
      (fun x => decide (x = pivotMin pts)), z ≠ pivotMin pts :=
    dropWhile_ne_O _ _ hsorted
  have hrest_suffix : ∃ t, t ++ (List.insertionSort (keyLe (pivotMin pts)) pts).dropWhile
      (fun x => decide (x = pivotMin pts)) = List.insertionSort (keyLe (pivotMin pts)) pts :=
    ⟨_, hsplit⟩
  have hrest_mem : ∀ z ∈ (List.insertionSort (keyLe (pivotMin pts)) pts).dropWhile
      (fun x => decide (x = pivotMin pts)), z ∈ pts := by
    intro z hz
    obtain ⟨t, ht⟩ := hrest_suffix
    refine hperm.subset ?_
    have : z ∈ t ++ (List.insertionSort (keyLe (pivotMin pts)) pts).dropWhile
        (fun x => decide (x = pivotMin pts)) := List.mem_append_right t hz
    rw [ht] at this
    exact this
  have hrest_pair : List.Pairwise (keyLe (pivotMin pts))
      ((List.insertionSort (keyLe (pivotMin pts)) pts).dropWhile
        (fun x => decide (x = pivotMin pts))) := by
    obtain ⟨t, ht⟩ := hrest_suffix
    refine hsorted.sublist ?_
    conv_rhs => rw [← ht]
    exact List.sublist_append_right t _
  have hds_ne : (List.insertionSort (keyLe (pivotMin pts)) pts).takeWhile
      (fun x => decide (x = pivotMin pts)) ≠ [] := by
    intro hnil
    have hOL : pivotMin pts ∈ List.insertionSort (keyLe (pivotMin pts)) pts :=
      hperm.mem_iff.2 hOmem
    rw [← hsplit, hnil, List.nil_append] at hOL
    exact hrest_ne _ hOL rfl
  rw [← hsplit, List.foldl_append]
  have hbase : (((List.insertionSort (keyLe (pivotMin pts)) pts).takeWhile
        (fun x => decide (x = pivotMin pts))).foldl
        (fun hull p => p :: popWhile p hull) [] = [pivotMin pts]) ∨
      (((List.insertionSort (keyLe (pivotMin pts)) pts).takeWhile
        (fun x => decide (x = pivotMin pts))).foldl
        (fun hull p => p :: popWhile p hull) [] = [pivotMin pts, pivotMin pts]) := by
    cases hdscase : (List.insertionSort (keyLe (pivotMin pts)) pts).takeWhile
        (fun x => decide (x = pivotMin pts)) with
    | nil => exact absurd hdscase hds_ne
    | cons d ds' =>
      have hd : d = pivotMin pts := hds d (by rw [hdscase]; exact List.mem_cons_self d ds')
      rw [List.foldl_cons]
      have hstep1 : (d :: popWhile d []) = [pivotMin pts] := by
        rw [hd]; rfl
      rw [hstep1]
      exact foldl_O_aux (pivotMin pts) ds' [pivotMin pts]
        (fun x hx => hds x (by rw [hdscase]; exact List.mem_cons_of_mem d hx))
        (Or.inl rfl)
  cases hrest_case : (List.insertionSort (keyLe (pivotMin pts)) pts).dropWhile
      (fun x => decide (x = pivotMin pts)) with
  | nil =>
    rw [List.foldl_nil]
    rcases hbase with h | h <;> rw [h]
    · exact Or.inl rfl
    · exact Or.inr (Or.inl rfl)
  | cons z rest' =>
    rw [List.foldl_cons]
    have hz_ne : z ≠ pivotMin pts := hrest_ne z (by rw [hrest_case]; simp)
    have hz_mem : z ∈ pts := hrest_mem z (by rw [hrest_case]; simp)
    have hz_up : upper (pivotMin pts) z := hupx z hz_mem
    rw [first_nonO_step (pivotMin pts) z _ hbase]
    have hinv2 : ScanInv (pivotMin pts) [z, pivotMin pts] := scanInv_two _ _ hz_ne hz_up
    have hkeys2 : ∀ x ∈ [z, pivotMin pts], ∀ w ∈ rest', keyLe (pivotMin pts) x w := by
      intro x hx w hw
      rcases List.mem_cons.1 hx with h | h
      · rw [h]
        have := hrest_pair
        rw [hrest_case] at this
        exact (List.pairwise_cons.1 this).1 w hw
      · rw [List.mem_singleton.1 h]
        exact keyLe_O_bot _ w
    obtain ⟨hinvF, hmemF⟩ := scan_fold_inv (pivotMin pts) rest' [z, pivotMin pts] hinv2
      (fun w hw => ⟨hrest_ne w (by rw [hrest_case]; exact List.mem_cons_of_mem z hw),
        hupx w (hrest_mem w (by rw [hrest_case]; exact List.mem_cons_of_mem z hw))⟩)
      hkeys2
      (by
        have := hrest_pair
        rw [hrest_case] at this
        exact (List.pairwise_cons.1 this).2)
    refine Or.inr (Or.inr ⟨_, hinvF, rfl, ?_⟩)
    intro x hx
    rcases hmemF x hx with h | h
    · rcases List.mem_cons.1 h with h' | h'
      · rw [h']; exact hz_mem
      · rw [List.mem_singleton.1 h']; exact hOmem
    · exact hrest_mem x (by rw [hrest_case]; exact List.mem_cons_of_mem z h)

/-! ### Hull-order facts -/

/-- The scan result in hull order: pivot first, non-pivot upper points after,
and every in-order triple turns left. -/
def HullInv (O : Point) (H : List Point) : Prop :=
  H ≠ [] ∧ H.head? = some O ∧ (∀ x ∈ H.tail, x ≠ O ∧ upper O x) ∧
    ∀ p q r : Point, ([p, q, r] : List Point).Sublist H → 0 ≤ cross_product p q r

theorem hullInv_of_scanInv (O : Point) (F : List Point) (h : ScanInv O F) :
    HullInv O F.reverse := by
  obtain ⟨hne, hlast, hdrop, _, htrip⟩ := h
  refine ⟨by simpa using hne, ?_, ?_, ?_⟩
  · rw [List.head?_reverse]
    exact hlast
  · intro x hx
    rw [List.tail_reverse] at hx
    exact hdrop x (by simpa using hx)
  · intro p q r hsub
    have h2 := hsub.reverse
    rw [List.reverse_reverse] at h2
    exact htrip p q r (by simpa using h2)

theorem hullInv_head_cons (O : Point) (H : List Point) (h : HullInv O H) :
    H = O :: H.tail := by
  obtain ⟨hne, hhead, _, _⟩ := h
  cases H with
  | nil => exact absurd rfl hne
  | cons a t =>
    have : a = O := by simpa using hhead
    rw [this]
    rfl

theorem hull_pair (O : Point) (H : List Point) (h : HullInv O H) {x y : Point}
    (hxy : ([x, y] : List Point).Sublist H) : 0 ≤ cross_product O x y := by
  have hdec := hullInv_head_cons O H h
  rw [hdec] at hxy
  rcases List.sublist_cons_iff.1 hxy with h1 | ⟨t2, ht2, ht2sub⟩
  · refine h.2.2.2 O x y ?_
    rw [hdec]
    exact List.Sublist.cons₂ O h1
  · have hxO : x = O := (List.cons.inj ht2).1
    rw [hxO, cross_product_self_left]

theorem convex_cyclic_short (l : List Point) (h : l.length ≤ 2) : convex_cyclic l := by
  intro i hi
  rcases Nat.lt_or_ge l.length 1 with h1 | h1
  · omega
  rcases Nat.lt_or_ge l.length 2 with h2 | h2
  · have hl1 : l.length = 1 := by omega
    have e1 : (i + 1) % l.length = i := by rw [hl1]; omega
    have e2 : (i + 2) % l.length = i := by rw [hl1]; omega
    rw [e1, e2, cross_product_self_left]
  · have hl2 : l.length = 2 := by omega
    have e2 : (i + 2) % l.length = i := by
      rw [hl2]
      rw [hl2] at hi
      omega
    rw [e2, cross_product_self_mid]

theorem getD_singleton_sublist {α : Type} (l : List α) (d : α) {i : ℕ} (h : i < l.length) :
    ([l.getD i d] : List α).Sublist l := by
  rw [List.getD_eq_getElem l d h]
  exact List.singleton_sublist.2 (l.getElem_mem h)

theorem getD_pair_sublist {α : Type} (l : List α) (d : α) : ∀ {i j : ℕ}, i < j →
    j < l.length → ([l.getD i d, l.getD j d] : List α).Sublist l := by
  induction l with
  | nil => intro i j _ hj; simp at hj
  | cons x xs ih =>
    intro i j hij hj
    cases i with
    | zero =>
      cases j with
      | zero => omega
      | succ j' =>
        rw [List.getD_cons_zero, List.getD_cons_succ]
        exact List.Sublist.cons₂ x (getD_singleton_sublist xs d (by simpa using hj))
    | succ i' =>
      cases j with
      | zero => omega
      | succ j' =>
        rw [List.getD_cons_succ, List.getD_cons_succ]
        exact List.Sublist.cons x (ih (by omega) (by simpa using hj))

theorem getD_triple_sublist {α : Type} (l : List α) (d : α) : ∀ {i j k : ℕ}, i < j →
    j < k → k < l.length →
    ([l.getD i d, l.getD j d, l.getD k d] : List α).Sublist l := by
  induction l with
  | nil => intro i j k _ _ hk; simp at hk
  | cons x xs ih =>
    intro i j k hij hjk hk
    cases i with
    | zero =>
      cases j with
      | zero => omega
      | succ j' =>
        cases k with
        | zero => omega
        | succ k' =>
          rw [List.getD_cons_zero, List.getD_cons_succ, List.getD_cons_succ]
          exact List.Sublist.cons₂ x (getD_pair_sublist xs d (by omega) (by simpa using hk))
    | succ i' =>
      cases j with
      | zero => omega
      | succ j' =>
        cases k with
        | zero => omega
        | succ k' =>
          rw [List.getD_cons_succ, List.getD_cons_succ, List.getD_cons_succ]
          exact List.Sublist.cons x (ih (by omega) (by omega) (by simpa using hk))

theorem hullInv_getD_zero (O : Point) (H : List Point) (h : HullInv O H) :
    H.getD 0 (0, 0) = O := by
  have hh := h.2.1
  rw [head?_eq_getD H (0, 0) h.1] at hh
  exact Option.some.inj hh

/-- Every hull-order stack is a convex cyclic polygon. -/
theorem hullInv_convex_cyclic (O : Point) (H : List Point) (h : HullInv O H) :
    convex_cyclic H := by
  by_cases hshort : H.length ≤ 2
  · exact convex_cyclic_short H hshort
  · push_neg at hshort
    have hn : 3 ≤ H.length := hshort
    intro i hi
    have hO : H.getD 0 (0, 0) = O := hullInv_getD_zero O H h
    rcases lt_trichotomy (i + 2) H.length with hlt | heq | hgt
    · rw [Nat.mod_eq_of_lt (by omega), Nat.mod_eq_of_lt hlt]
      exact h.2.2.2 _ _ _ (getD_triple_sublist H (0, 0) (by omega) (by omega) hlt)
    · have hi1 : i + 1 < H.length := by omega
      rw [Nat.mod_eq_of_lt hi1, ← heq, Nat.mod_self, hO, cross_wrap_last O]
      exact hull_pair O H h (getD_pair_sublist H (0, 0) (by omega) hi1)
    · have hieq : i = H.length - 1 := by omega
      have h1 : (i + 1) % H.length = 0 := by
        rw [hieq, Nat.sub_add_cancel (by omega), Nat.mod_self]
      have h2 : (i + 2) % H.length = 1 := by
        have heq2 : i + 2 = H.length + 1 := by omega
        rw [heq2, Nat.add_comm, Nat.add_mod_right, Nat.mod_eq_of_lt (by omega)]
      rw [h1, h2, hO, cross_wrap_origin O]
      exact hull_pair O H h (getD_pair_sublist H (0, 0) (by omega) (by omega))

/-! ### Degenerate hulls: zero shoelace forces total collinearity -/

/-- Fan decomposition of the shoelace sum from an apex `o`. -/
def fanSum (o : Point) : List Point → ℚ
  | x :: y :: t => cross_product o x y + fanSum o (y :: t)
  | _ => 0

theorem cross_product_edgeDet (o x y : Point) :
    cross_product o x y = edgeDet x y + edgeDet o x - edgeDet o y := by
  unfold cross_product edgeDet
  ring

theorem fanSum_formula (o : Point) : ∀ (t : List Point) (x : Point),
    fanSum o (x :: t) = pathSum (x :: t) + edgeDet o x -
      edgeDet o ((x :: t).getLastD (0, 0)) := by
  intro t
  induction t with
  | nil =>
    intro x
    simp [fanSum, pathSum, List.getLastD]
  | cons y tt ih =>
    intro x
    rw [show fanSum o (x :: y :: tt) = cross_product o x y + fanSum o (y :: tt) from rfl]
    rw [ih y]
    rw [show pathSum (x :: y :: tt) = edgeDet x y + pathSum (y :: tt) from rfl]
    have hlast : (x :: y :: tt).getLastD (0, 0) = (y :: tt).getLastD (0, 0) := by
      rw [List.getLastD_cons]
      exact getLastD_eq_of_ne_nil (y :: tt) x (0, 0) (by simp)
    rw [hlast, cross_product_edgeDet]
    ring

theorem shoelace_cons_fanSum (o : Point) (t : List Point) :
    shoelace (o :: t) = fanSum o t := by
  cases t with
  | nil =>
    simp [shoelace, fanSum, edgeDet]
  | cons x tt =>
    rw [shoelace_eq_pathSum (o :: x :: tt) (by simp), fanSum_formula o tt x]
    rw [show pathSum (o :: x :: tt) = edgeDet o x + pathSum (x :: tt) from rfl]
    have hlast : (o :: x :: tt).getLastD (0, 0) = (x :: tt).getLastD (0, 0) := by
      rw [List.getLastD_cons]
      exact getLastD_eq_of_ne_nil (x :: tt) o (0, 0) (by simp)
    have hhead : (o :: x :: tt).headD (0, 0) = o := rfl
    rw [hlast, hhead, edgeDet_antisymm ((x :: tt).getLastD (0, 0)) o]
    ring

theorem chain'_of_pairs {α : Type} (R : α → α → Prop) :
    ∀ l : List α, (∀ x y, ([x, y] : List α).Sublist l → R x y) → List.Chain' R l := by
  intro l
  induction l with
  | nil => intro _; exact List.chain'_nil
  | cons x xs ih =>
    intro h
    cases xs with
    | nil => exact List.chain'_singleton x
    | cons y ys =>
      refine List.chain'_cons.2 ⟨?_, ?_⟩
      · exact h x y (List.Sublist.cons₂ x (List.Sublist.cons₂ y (List.nil_sublist ys)))
      · exact ih (fun a b hab => h a b (List.Sublist.cons x hab))

theorem fanSum_nonneg (O : Point) : ∀ t : List Point,
    List.Chain' (fun x y => 0 ≤ cross_product O x y) t → 0 ≤ fanSum O t := by
  intro t
  induction t with
  | nil => intro _; exact le_refl 0
  | cons x xs ih =>
    intro hch
    cases xs with
    | nil => exact le_refl 0
    | cons y ys =>
      rw [show fanSum O (x :: y :: ys) = cross_product O x y + fanSum O (y :: ys) from rfl]
      have h1 := (List.chain'_cons.1 hch).1
      have h2 := ih (List.chain'_cons.1 hch).2
      linarith

theorem fanSum_zero_chain (O : Point) : ∀ t : List Point,
    List.Chain' (fun x y => 0 ≤ cross_product O x y) t → fanSum O t ≤ 0 →
    List.Chain' (fun x y => cross_product O x y = 0) t := by
  intro t
  induction t with
  | nil => intro _ _; exact List.chain'_nil
  | cons x xs ih =>
    intro hch hle
    cases xs with
    | nil => exact List.chain'_singleton x
    | cons y ys =>
      rw [show fanSum O (x :: y :: ys) = cross_product O x y + fanSum O (y :: ys) from rfl]
        at hle
      have h1 := (List.chain'_cons.1 hch).1
      have h2 := (List.chain'_cons.1 hch).2
      have h3 := fanSum_nonneg O (y :: ys) h2
      refine List.chain'_cons.2 ⟨by linarith, ih h2 (by linarith)⟩

theorem cross_bracket_antisymm (O p q : Point) :
    cross_product O p q = -cross_product O q p := by
  unfold cross_product; ring

theorem head_zero_all (O : Point) : ∀ (tt : List Point) (x : Point),
    List.Chain' (fun a b => cross_product O a b = 0) (x :: tt) →
    (∀ e ∈ x :: tt, e ≠ O) → ∀ y ∈ tt, cross_product O x y = 0 := by
  intro tt
  induction tt with
  | nil => simp
  | cons y tt' ih =>
    intro x hch hne w hw
    have hxy : cross_product O x y = 0 := (List.chain'_cons.1 hch).1
    rcases List.mem_cons.1 hw with h | h
    · rw [h]
      exact hxy
    · have hyw : cross_product O y w = 0 :=
        ih y (List.chain'_cons.1 hch).2 (fun e he => hne e (List.mem_cons_of_mem x he)) w h
      exact bracket_trans_zero O x y w (hne y (by simp)) hxy hyw

theorem chain_zero_pairs (O : Point) : ∀ t : List Point,
    List.Chain' (fun a b => cross_product O a b = 0) t → (∀ e ∈ t, e ≠ O) →
    ∀ p ∈ t, ∀ q ∈ t, cross_product O p q = 0 := by
  intro t
  induction t with
  | nil => simp
  | cons x tt ih =>
    intro hch hne p hp q hq
    rcases List.mem_cons.1 hp with hp1 | hp1 <;> rcases List.mem_cons.1 hq with hq1 | hq1
    · rw [hp1, hq1, cross_product_self_right]
    · rw [hp1]
      exact head_zero_all O tt x hch hne q hq1
    · rw [hq1, cross_bracket_antisymm, head_zero_all O tt x hch hne p hp1]
      ring
    · exact ih hch.tail (fun e he => hne e (List.mem_cons_of_mem x he)) p hp1 q hq1

theorem cross_product_right_self (o a : Point) : cross_product o a o = 0 := by
  unfold cross_product; ring

/-- A hull-invariant polygon with nonpositive shoelace sum is totally
collinear: every turn over its vertices vanishes. -/
theorem hull_degenerate_zero (O : Point) (H : List Point) (h : HullInv O H)
    (hsl : shoelace H ≤ 0) : ∀ p ∈ H, ∀ q ∈ H, ∀ r ∈ H, cross_product p q r = 0 := by
  have hdec := hullInv_head_cons O H h
  have hchainpos : List.Chain' (fun x y => 0 ≤ cross_product O x y) H.tail := by
    apply chain'_of_pairs
    intro x y hxy
    apply hull_pair O H h
    rw [hdec]
    exact List.Sublist.cons O hxy
  have hfan : shoelace H = fanSum O H.tail := by
    conv_lhs => rw [hdec]
    exact shoelace_cons_fanSum O H.tail
  have hchain0 : List.Chain' (fun x y => cross_product O x y = 0) H.tail :=
    fanSum_zero_chain O H.tail hchainpos (by rw [← hfan]; exact hsl)
  have hne_tail : ∀ e ∈ H.tail, e ≠ O := fun e he => (h.2.2.1 e he).1
  have hpairs0 : ∀ p ∈ H, ∀ q ∈ H, cross_product O p q = 0 := by
    intro p hp q hq
    rw [hdec] at hp hq
    rcases List.mem_cons.1 hp with hp1 | hp1
    · rw [hp1, cross_product_self_left]
    · rcases List.mem_cons.1 hq with hq1 | hq1
      · rw [hq1, cross_product_right_self]
      · exact chain_zero_pairs O H.tail hchain0 hne_tail p hp1 q hq1
  intro p hp q hq r hr
  rw [cross_eq_brackets O p q r, hpairs0 q hq r hr, hpairs0 p hp r hr, hpairs0 p hp q hq]
  ring

theorem convex_cyclic_of_mem_zero (l : List Point)
    (h : ∀ p ∈ l, ∀ q ∈ l, ∀ r ∈ l, cross_product p q r = 0) : convex_cyclic l := by
  intro i hi
  have hn : 0 < l.length := by omega
  have m1 : l.getD i (0, 0) ∈ l := by
    rw [List.getD_eq_getElem l _ hi]
    exact l.getElem_mem hi
  have m2 : l.getD ((i + 1) % l.length) (0, 0) ∈ l := by
    rw [List.getD_eq_getElem l _ (Nat.mod_lt _ hn)]
    exact l.getElem_mem _
  have m3 : l.getD ((i + 2) % l.length) (0, 0) ∈ l := by
    rw [List.getD_eq_getElem l _ (Nat.mod_lt _ hn)]
    exact l.getElem_mem _
  rw [h _ m1 _ m2 _ m3]
